import Mathlib

/-!
# SpellChecker: AVLSet, HashSet and WordChecker

A shallow embedding of `core/AVLSet.hpp`, `core/HashSet.hpp` and
`core/WordChecker.cpp`, followed by theorems about the embedded operations.

Conventions of the embedding.

* A `Node*` of the AVL tree is a value of `AVLSet.Node`: `nullptr` or a node
  with the four fields of the source struct.  A function that takes a
  `Node*&` and assigns through it returns the new pointee.
* Dereferencing a null pointer is undefined behaviour in the source.  Every
  function that dereferences a child pointer returns an `Option`, with `none`
  standing for "a null pointer was dereferenced".
* The `int` counters (`current_size`, `max_capacity`, `node_height`) are
  unbounded integers: none of them leaves the range of `int` before more than
  `10 ^ 9` calls of `add` (the first such value would be the capacity
  `10 * 2 ^ 28`).  A hash value is any natural number; the source's
  `unsigned int` values are among them.
* A visitor traversal is the list of the values handed to `visit`, in order.
* A bucket chain of the hash table is the list of its values, head first.
* A store outside an allocated array is undefined behaviour in the source and
  `none` in the functions that can make one.
* A `std::string` is the list of its characters; `word.size()` is a
  `std::size_t`, taken as 64 bits wide, and the one subtraction on it is
  computed modulo `2 ^ 64`.  The `Set<std::string>` a `WordChecker` refers to
  is given by its `contains` function.
-/

namespace SpellChecker

/-! ## AVLSet.hpp -/

/-- A `Node*` of `AVLSet`: either `nullptr` or a node holding `value`, `left`,
`right` and the cached `node_height`. -/
inductive AVLSet.Node (α : Type) where
  | nullptr : AVLSet.Node α
  | node (value : α) (left : AVLSet.Node α) (right : AVLSet.Node α) (node_height : Int) :
      AVLSet.Node α
  deriving DecidableEq

/-- The member variables of `AVLSet`: `root`, `balance`, `current_size`. -/
structure AVLSet (α : Type) where
  root : AVLSet.Node α
  balance : Bool
  current_size : Int
  deriving DecidableEq

namespace AVLSet

variable {α : Type}

/-- Source `AVLSet(bool shouldBalance)`: the empty set. -/
def new (shouldBalance : Bool) : AVLSet α :=
  { root := Node.nullptr, balance := shouldBalance, current_size := 0 }

/-- Source `containsHelper`: equality at the node, otherwise both subtrees. -/
def containsHelper [DecidableEq α] : Node α → α → Bool
  | .nullptr, _ => false
  | .node value left right _, element =>
    if value = element then true
    else containsHelper left element || containsHelper right element

/-- Source `findHeight`: returns the height of the subtree (`-1` for `nullptr`) and,
as in the source, stores the computed height in every node it visits; the
second component is the subtree after those stores. -/
def findHeight : Node α → Int × Node α
  | .nullptr => (-1, .nullptr)
  | .node value left right _ =>
    let l := findHeight left
    let r := findHeight right
    let h := 1 + max l.1 r.1
    (h, .node value l.2 r.2 h)

/-- Source `get_height`: the cached height of a node, `0` for `nullptr`. -/
def get_height : Node α → Int
  | .nullptr => 0
  | .node _ _ _ node_height => node_height

/-- Source `rightRotate(node)`: `x = node->left` is promoted; `none` when `node` or
`node->left` is null (the source then dereferences a null pointer). -/
def rightRotate : Node α → Option (Node α)
  | .node value (.node xvalue xleft xright _) right _ =>
    let node := Node.node value xright right (max (get_height xright) (get_height right) + 1)
    some (.node xvalue xleft node (max (get_height xleft) (get_height node) + 1))
  | _ => none

/-- Source `leftRotate(node)`: `x = node->right` is promoted; `none` when `node` or
`node->right` is null. -/
def leftRotate : Node α → Option (Node α)
  | .node value left (.node xvalue xleft xright _) _ =>
    let node := Node.node value left xleft (max (get_height left) (get_height xleft) + 1)
    some (.node xvalue node xright (max (get_height node) (get_height xright) + 1))
  | _ => none

/-- The read `node->left->value`. -/
def leftValue : Node α → Option α
  | .node _ (.node v _ _ _) _ _ => some v
  | _ => none

/-- The read `node->right->value`. -/
def rightValue : Node α → Option α
  | .node _ _ (.node v _ _ _) _ => some v
  | _ => none

/-- The call `leftRotate(node->left)`, which assigns through `node->left`. -/
def leftRotateLeftChild : Node α → Option (Node α)
  | .node value left right h => (leftRotate left).map (fun l => .node value l right h)
  | .nullptr => none

/-- The call `rightRotate(node->right)`, which assigns through `node->right`. -/
def rightRotateRightChild : Node α → Option (Node α)
  | .node value left right h => (rightRotate right).map (fun r => .node value left r h)
  | .nullptr => none

/-- The statement
`if (height_difference > 1 && element < node->left->value) rightRotate(node);`
of the rebalancing block. -/
def rebalanceLeftLeft [LinearOrder α] (element : α) (height_difference : Int)
    (node : Node α) : Option (Node α) :=
  if height_difference > 1 then
    (leftValue node).bind (fun lv => if element < lv then rightRotate node else some node)
  else some node

/-- The statement
`if (height_difference < -1 && element > node->right->value) leftRotate(node);`
of the rebalancing block. -/
def rebalanceRightRight [LinearOrder α] (element : α) (height_difference : Int)
    (node : Node α) : Option (Node α) :=
  if height_difference < -1 then
    (rightValue node).bind (fun rv => if element > rv then leftRotate node else some node)
  else some node

/-- The statement `if (height_difference > 1 && element > node->left->value)
{ leftRotate(node->left); rightRotate(node); }` of the rebalancing block. -/
def rebalanceLeftRight [LinearOrder α] (element : α) (height_difference : Int)
    (node : Node α) : Option (Node α) :=
  if height_difference > 1 then
    (leftValue node).bind (fun lv =>
      if element > lv then (leftRotateLeftChild node).bind rightRotate else some node)
  else some node

/-- The statement `if (height_difference < -1 && element < node->right->value)
{ rightRotate(node->right); leftRotate(node); }` of the rebalancing block. -/
def rebalanceRightLeft [LinearOrder α] (element : α) (height_difference : Int)
    (node : Node α) : Option (Node α) :=
  if height_difference < -1 then
    (rightValue node).bind (fun rv =>
      if element < rv then (rightRotateRightChild node).bind leftRotate else some node)
  else some node

/-- The body of `if (balance) { ... }` in `insert`, run on `node`:
`node->node_height = findHeight(node)`, then `height_difference`, computed
once, then the four `if` statements one after the other, each of them reading
the `node` the statements before it have left. -/
def rebalance [LinearOrder α] (element : α) (node : Node α) : Option (Node α) :=
  match findHeight node with
  | (_, .nullptr) => none
  | (h, .node value left right _) =>
    let l := findHeight left
    let r := findHeight right
    let height_difference := l.1 - r.1
    let node0 := Node.node value l.2 r.2 h
    (((rebalanceLeftLeft element height_difference node0).bind
      (rebalanceRightRight element height_difference)).bind
      (rebalanceLeftRight element height_difference)).bind
      (rebalanceRightLeft element height_difference)

/-- Source `insert(element, node)`.  `root` is the tree of the set at the moment of
the call: `contains(element)` searches from the root, and nothing is written
between the entry into `insert` and its recursive call, so the recursive call
sees the same `root`. -/
def insert [LinearOrder α] (root : Node α) (balance : Bool) (element : α) :
    Node α → Option (Node α)
  | .nullptr =>
    if containsHelper root element then some .nullptr
    else
      let node := Node.node element .nullptr .nullptr 1
      if balance then rebalance element node else some node
  | .node value left right h =>
    if containsHelper root element then some (.node value left right h)
    else
      (if value < element then
        (insert root balance element right).map (fun r => Node.node value left r h)
      else if value > element then
        (insert root balance element left).map (fun l => Node.node value l right h)
      else some (Node.node value left right h)).bind
        (fun node => if balance then rebalance element node else some node)

/-- Source `add(element)`: `insert(element, root); current_size++;`. -/
def add [LinearOrder α] (s : AVLSet α) (element : α) : Option (AVLSet α) :=
  (insert s.root s.balance element s.root).map
    (fun r => { root := r, balance := s.balance, current_size := s.current_size + 1 })

/-- Source `contains(element)`. -/
def contains [DecidableEq α] (s : AVLSet α) (element : α) : Bool :=
  containsHelper s.root element

/-- Source `size()`. -/
def size (s : AVLSet α) : Int := s.current_size

/-- Source `height()`: the value returned by `findHeight(root)`. -/
def height (s : AVLSet α) : Int := (findHeight s.root).1

/-- Source `preorderHelper`: the values visited, in order. -/
def preorderHelper : Node α → List α
  | .nullptr => []
  | .node value left right _ => value :: (preorderHelper left ++ preorderHelper right)

/-- Source `inorderHelper`: the values visited, in order. -/
def inorderHelper : Node α → List α
  | .nullptr => []
  | .node value left right _ => inorderHelper left ++ value :: inorderHelper right

/-- Source `postorderHelper`: the values visited, in order. -/
def postorderHelper : Node α → List α
  | .nullptr => []
  | .node value left right _ => postorderHelper left ++ (postorderHelper right ++ [value])

/-- Source `inorder(visit)`. -/
def inorder (s : AVLSet α) : List α := inorderHelper s.root

/-- A sequence of `add` calls on a set, stopping at the first call that
dereferences a null pointer. -/
def addAll [LinearOrder α] (s : AVLSet α) : List α → Option (AVLSet α)
  | [] => some s
  | x :: xs => (add s x).bind (fun s1 => addAll s1 xs)

/-- Every node of the tree has balance factor `height(left) - height(right)`
in `{-1, 0, 1}`, heights being those `findHeight` returns. -/
def balanced : Node α → Bool
  | .nullptr => true
  | .node _ left right _ =>
    let d := (findHeight left).1 - (findHeight right).1
    decide (-1 ≤ d) && decide (d ≤ 1) && balanced left && balanced right

/-- Source `preorder(visit)`. -/
def preorder (s : AVLSet α) : List α := preorderHelper s.root

/-- Source `postorder(visit)`. -/
def postorder (s : AVLSet α) : List α := postorderHelper s.root

/-- Source `copyAVLSet(source, target)`: the value assigned to `target`.  Every
copied node is a new node whose cached height is 1. -/
def copyAVLSet : Node α → Node α
  | .nullptr => .nullptr
  | .node value left right _ => .node value (copyAVLSet left) (copyAVLSet right) 1

/-- Source `AVLSet(const AVLSet& s)`, the copy constructor. -/
def copy (s : AVLSet α) : AVLSet α :=
  { root := copyAVLSet s.root, balance := s.balance, current_size := s.current_size }

/-- The search-tree ordering of the data model: at every node, every value of
the left subtree is less than the node's value and every value of the right
subtree is greater. -/
def bstOrdered [LinearOrder α] : Node α → Prop
  | .nullptr => True
  | .node value left right _ =>
    (∀ a ∈ inorderHelper left, a < value) ∧ (∀ b ∈ inorderHelper right, value < b) ∧
      bstOrdered left ∧ bstOrdered right

/-- Every node's cached `node_height` equals `1 + max(height(left),
height(right))`, the height of an absent subtree being `-1`. -/
def cachedHeightsAgree : Node α → Bool
  | .nullptr => true
  | .node _ left right node_height =>
    decide (node_height = 1 + max (findHeight left).1 (findHeight right).1) &&
      cachedHeightsAgree left && cachedHeightsAgree right

/-- The degenerate tree that holds the values of a list along its right
spine, each node as `insert` creates it (cached height 1, no left child). -/
def rightSpine : List α → Node α
  | [] => .nullptr
  | x :: xs => .node x .nullptr (rightSpine xs) 1

/-- The comparison-guided search of the specification, for comparison with
`containsHelper`: at a node it descends only into the left subtree when the
element is less than the node's value, only into the right subtree when it is
greater, and answers true when it is neither. -/
def orderedSearch [LinearOrder α] : Node α → α → Bool
  | .nullptr, _ => false
  | .node value left right _, element =>
    if element < value then orderedSearch left element
    else if value < element then orderedSearch right element
    else true

/-- The number of levels of a tree: 0 for `nullptr`, one more than the height
otherwise; the recursion depth the functions on a tree need. -/
def levels : Node α → Nat
  | .nullptr => 0
  | .node _ left right _ => 1 + max (levels left) (levels right)

/-! ### AVLSet.hpp on a store of node objects

The functions above pass trees as values.  The functions of this part keep
the `Node` objects in a store, so that two sets can share or not share nodes:
a `Node*` is `none` for `nullptr` and `some a` for the object at address `a`,
`new Node` appends an object to the store, and an assignment through a
pointer replaces the object at its address.  A function that takes a
`Node*&` returns the pointer that the variable holds at the end, and its
caller stores it.  Recursion on pointers is bounded by a number of levels;
`none` stands for a dereferenced null pointer or an exhausted bound. -/

namespace Mem

/-- A `Node` object in the store. -/
structure Cell (α : Type) where
  value : α
  left : Option Nat
  right : Option Nat
  node_height : Int
  deriving DecidableEq

/-- The member variables of an `AVLSet` object whose nodes are in a store. -/
structure Object where
  root : Option Nat
  balance : Bool
  current_size : Int
  deriving DecidableEq

/-- The object `*p`. -/
def deref (m : List (Cell α)) (p : Option Nat) : Option (Cell α) :=
  p.bind (fun a => m[a]?)

/-- The assignment `p->left = q`. -/
def setLeft (m : List (Cell α)) (p q : Option Nat) : Option (List (Cell α)) :=
  p.bind (fun a => (m[a]?).map (fun c => m.set a { c with left := q }))

/-- The assignment `p->right = q`. -/
def setRight (m : List (Cell α)) (p q : Option Nat) : Option (List (Cell α)) :=
  p.bind (fun a => (m[a]?).map (fun c => m.set a { c with right := q }))

/-- The assignment `p->node_height = h`. -/
def setHeight (m : List (Cell α)) (p : Option Nat) (h : Int) : Option (List (Cell α)) :=
  p.bind (fun a => (m[a]?).map (fun c => m.set a { c with node_height := h }))

/-- The tree `t` is stored at the pointer `p`: `p` is null for `nullptr`, and
otherwise the object at `p` holds the value and the cached height of the root
of `t` and its child pointers store the two subtrees. -/
def stored [DecidableEq α] (m : List (Cell α)) : Option Nat → Node α → Bool
  | none, .nullptr => true
  | some a, .node value left right node_height =>
    match m[a]? with
    | some c =>
      decide (c.value = value) && decide (c.node_height = node_height) &&
        stored m c.left left && stored m c.right right
    | none => false
  | none, .node _ _ _ _ => false
  | some _, .nullptr => false

/-- Source `copyAVLSet(source, target)`: the store afterwards and the pointer
assigned to `target`. -/
def copyAVLSet : Nat → List (Cell α) → Option Nat → Option (List (Cell α) × Option Nat)
  | 0, _, _ => none
  | _ + 1, m, none => some (m, none)
  | fuel + 1, m, some a =>
    (m[a]?).bind (fun source =>
      -- target = new Node{source->value, nullptr, nullptr, 1};
      let target : Option Nat := some m.length
      (copyAVLSet fuel (m ++ [Cell.mk source.value none none 1]) source.left).bind (fun l =>
        (setLeft l.1 target l.2).bind (fun m1 =>
          (copyAVLSet fuel m1 source.right).bind (fun r =>
            (setRight r.1 target r.2).map (fun m2 => (m2, target))))))

/-- Source `AVLSet(const AVLSet& s)`, the copy constructor. -/
def copy (fuel : Nat) (m : List (Cell α)) (s : Object) : Option (List (Cell α) × Object) :=
  (copyAVLSet fuel m s.root).map
    (fun r => (r.1, { root := r.2, balance := s.balance, current_size := s.current_size }))

/-- Source `containsHelper(node, element)`. -/
def containsHelper [DecidableEq α] : Nat → List (Cell α) → Option Nat → α → Option Bool
  | 0, _, _, _ => none
  | _ + 1, _, none, _ => some false
  | fuel + 1, m, some a, element =>
    (m[a]?).bind (fun node =>
      if node.value = element then some true
      else
        (containsHelper fuel m node.left element).bind (fun l =>
          if l then some true else containsHelper fuel m node.right element))

/-- Source `findHeight(node)`: the height and the store after the stores to
`node_height`; the left subtree is visited first. -/
def findHeight : Nat → List (Cell α) → Option Nat → Option (Int × List (Cell α))
  | 0, _, _ => none
  | _ + 1, m, none => some (-1, m)
  | fuel + 1, m, some a =>
    (m[a]?).bind (fun node =>
      (findHeight fuel m node.left).bind (fun l =>
        (findHeight fuel l.2 node.right).bind (fun r =>
          (setHeight r.2 (some a) (1 + max l.1 r.1)).map (fun m1 => (1 + max l.1 r.1, m1)))))

/-- Source `get_height(node)`. -/
def get_height (m : List (Cell α)) (node : Option Nat) : Option Int :=
  match node with
  | none => some 0
  | some a => (m[a]?).map (fun c => c.node_height)

/-- The statement `p->node_height = max(get_height(p->left),
get_height(p->right)) + 1` of the rotations. -/
def recomputeHeight (m : List (Cell α)) (p : Option Nat) : Option (List (Cell α)) :=
  (deref m p).bind (fun c =>
    (get_height m c.left).bind (fun hl =>
      (get_height m c.right).bind (fun hr =>
        setHeight m p (max hl hr + 1))))

/-- Source `rightRotate(node)`. -/
def rightRotate (m : List (Cell α)) (node : Option Nat) :
    Option (List (Cell α) × Option Nat) :=
  (deref m node).bind (fun n =>
    -- Node* x = node->left;
    let x := n.left
    (deref m x).bind (fun xn =>
      -- node->left = x->right;  x->right = node;
      (setLeft m node xn.right).bind (fun m1 =>
        (setRight m1 x node).bind (fun m2 =>
          (recomputeHeight m2 node).bind (fun m3 =>
            (recomputeHeight m3 x).map (fun m4 => (m4, x)))))))

/-- Source `leftRotate(node)`. -/
def leftRotate (m : List (Cell α)) (node : Option Nat) :
    Option (List (Cell α) × Option Nat) :=
  (deref m node).bind (fun n =>
    -- Node* x = node->right;
    let x := n.right
    (deref m x).bind (fun xn =>
      -- node->right = x->left;  x->left = node;
      (setRight m node xn.left).bind (fun m1 =>
        (setLeft m1 x node).bind (fun m2 =>
          (recomputeHeight m2 node).bind (fun m3 =>
            (recomputeHeight m3 x).map (fun m4 => (m4, x)))))))

/-- The read `node->left->value`. -/
def leftValue (m : List (Cell α)) (node : Option Nat) : Option α :=
  (deref m node).bind (fun n => (deref m n.left).map (fun c => c.value))

/-- The read `node->right->value`. -/
def rightValue (m : List (Cell α)) (node : Option Nat) : Option α :=
  (deref m node).bind (fun n => (deref m n.right).map (fun c => c.value))

/-- The call `leftRotate(node->left)`. -/
def leftRotateLeftChild (m : List (Cell α)) (node : Option Nat) :
    Option (List (Cell α) × Option Nat) :=
  (deref m node).bind (fun n =>
    (leftRotate m n.left).bind (fun r =>
      (setLeft r.1 node r.2).map (fun m1 => (m1, node))))

/-- The call `rightRotate(node->right)`. -/
def rightRotateRightChild (m : List (Cell α)) (node : Option Nat) :
    Option (List (Cell α) × Option Nat) :=
  (deref m node).bind (fun n =>
    (rightRotate m n.right).bind (fun r =>
      (setRight r.1 node r.2).map (fun m1 => (m1, node))))

/-- The first `if` of the rebalancing block. -/
def rebalanceLeftLeft [LinearOrder α] (element : α) (height_difference : Int)
    (st : List (Cell α) × Option Nat) : Option (List (Cell α) × Option Nat) :=
  if height_difference > 1 then
    (leftValue st.1 st.2).bind (fun lv =>
      if element < lv then rightRotate st.1 st.2 else some st)
  else some st

/-- The second `if` of the rebalancing block. -/
def rebalanceRightRight [LinearOrder α] (element : α) (height_difference : Int)
    (st : List (Cell α) × Option Nat) : Option (List (Cell α) × Option Nat) :=
  if height_difference < -1 then
    (rightValue st.1 st.2).bind (fun rv =>
      if element > rv then leftRotate st.1 st.2 else some st)
  else some st

/-- The third `if` of the rebalancing block. -/
def rebalanceLeftRight [LinearOrder α] (element : α) (height_difference : Int)
    (st : List (Cell α) × Option Nat) : Option (List (Cell α) × Option Nat) :=
  if height_difference > 1 then
    (leftValue st.1 st.2).bind (fun lv =>
      if element > lv then
        (leftRotateLeftChild st.1 st.2).bind (fun r => rightRotate r.1 r.2)
      else some st)
  else some st

/-- The fourth `if` of the rebalancing block. -/
def rebalanceRightLeft [LinearOrder α] (element : α) (height_difference : Int)
    (st : List (Cell α) × Option Nat) : Option (List (Cell α) × Option Nat) :=
  if height_difference < -1 then
    (rightValue st.1 st.2).bind (fun rv =>
      if element < rv then
        (rightRotateRightChild st.1 st.2).bind (fun r => leftRotate r.1 r.2)
      else some st)
  else some st

/-- The body of `if (balance) { ... }` in `insert`; `limit` bounds the
recursion of `findHeight`. -/
def rebalance [LinearOrder α] (limit : Nat) (m : List (Cell α)) (element : α)
    (node : Option Nat) : Option (List (Cell α) × Option Nat) :=
  -- node->node_height = findHeight(node);
  (findHeight limit m node).bind (fun h =>
    (setHeight h.2 node h.1).bind (fun m1 =>
      (deref m1 node).bind (fun n =>
        -- int height_difference = findHeight(node->left) - findHeight(node->right);
        (findHeight limit m1 n.left).bind (fun l =>
          (findHeight limit l.2 n.right).bind (fun r =>
            (((rebalanceLeftLeft element (l.1 - r.1) (r.2, node)).bind
              (rebalanceRightRight element (l.1 - r.1))).bind
              (rebalanceLeftRight element (l.1 - r.1))).bind
              (rebalanceRightLeft element (l.1 - r.1)))))))

/-- Source `insert(element, node)` for the set whose root pointer is `root`;
`limit` bounds the recursion of `contains` and `findHeight`. -/
def insert [LinearOrder α] (limit : Nat) :
    Nat → List (Cell α) → Option Nat → Bool → α → Option Nat →
      Option (List (Cell α) × Option Nat)
  | 0, _, _, _, _, _ => none
  | fuel + 1, m, root, balance, element, node =>
    (containsHelper limit m root element).bind (fun present =>
      if present then some (m, node)
      else
        (match node with
          | none => some (m ++ [Cell.mk element none none 1], some m.length)
          | some a =>
            (m[a]?).bind (fun n =>
              if n.value < element then
                (insert limit fuel m root balance element n.right).bind (fun r =>
                  (setRight r.1 node r.2).map (fun m1 => (m1, node)))
              else if n.value > element then
                (insert limit fuel m root balance element n.left).bind (fun l =>
                  (setLeft l.1 node l.2).map (fun m1 => (m1, node)))
              else some (m, node))).bind
          (fun st => if balance then rebalance limit st.1 element st.2 else some st))

/-- Source `add(element)`: `insert(element, root); current_size++;`. -/
def add [LinearOrder α] (limit : Nat) (m : List (Cell α)) (s : Object) (element : α) :
    Option (List (Cell α) × Object) :=
  (insert limit limit m s.root s.balance element s.root).map
    (fun r => (r.1, { root := r.2, balance := s.balance, current_size := s.current_size + 1 }))

/-- Source `contains(element)`. -/
def contains [DecidableEq α] (fuel : Nat) (m : List (Cell α)) (s : Object) (element : α) :
    Option Bool :=
  containsHelper fuel m s.root element

/-- The objects of a program: the `Node` objects and the `AVLSet` objects,
each kind addressed by its index. -/
structure Heap (α : Type) where
  nodes : List (Cell α)
  sets : List Object
  deriving DecidableEq

/-- The declaration `AVLSet c{s}` for the `AVLSet` object at address `s`: the
copy constructor runs on a new `AVLSet` object; the heap afterwards and the
address of the new object. -/
def constructCopy (fuel : Nat) (h : Heap α) (s : Nat) : Option (Heap α × Nat) :=
  (h.sets[s]?).bind (fun o =>
    (copy fuel h.nodes o).map (fun r => (Heap.mk r.1 (h.sets ++ [r.2]), h.sets.length)))

/-- The call `c.add(element)` for the `AVLSet` object at address `c`. -/
def addAt [LinearOrder α] (limit : Nat) (h : Heap α) (c : Nat) (element : α) :
    Option (Heap α) :=
  (h.sets[c]?).bind (fun o =>
    (add limit h.nodes o element).map (fun r => Heap.mk r.1 (h.sets.set c r.2)))

/-- The call `s.size()` for the `AVLSet` object at address `s`. -/
def sizeAt (h : Heap α) (s : Nat) : Option Int :=
  (h.sets[s]?).map (fun o => o.current_size)

/-- The call `s.contains(element)` for the `AVLSet` object at address `s`. -/
def containsAt [DecidableEq α] (fuel : Nat) (h : Heap α) (s : Nat) (element : α) :
    Option Bool :=
  (h.sets[s]?).bind (fun o => contains fuel h.nodes o element)

/-- A pointer is null or an address from `N` on. -/
def Fresh (N : Nat) (p : Option Nat) : Prop := ∀ a, p = some a → N ≤ a

/-- The store has at least `N` objects, and every object at an address from
`N` on has child pointers that are null or addresses from `N` on. -/
def Region (N : Nat) (m : List (Cell α)) : Prop :=
  N ≤ m.length ∧ ∀ a c, N ≤ a → m[a]? = some c → Fresh N c.left ∧ Fresh N c.right

/-- The stores `m` and `m'` hold the same objects at the addresses below
`N`. -/
def Agree (N : Nat) (m m' : List (Cell α)) : Prop := ∀ a, a < N → m'[a]? = m[a]?

end Mem

end AVLSet

/-! ## HashSet.hpp -/

/-- The member variables of `HashSet`: `hashFunction`, the bucket array
`hash_set` (one chain per cell), `max_capacity` and `current_size`. -/
structure HashSet (α : Type) where
  hashFunction : α → Nat
  hash_set : List (List α)
  max_capacity : Nat
  current_size : Nat

namespace HashSet

variable {α : Type}

/-- Source constant `DEFAULT_CAPACITY`. -/
def DEFAULT_CAPACITY : Nat := 10

/-- A freshly allocated array of `max_size` cells after `initializeHashSet`
has stored `nullptr` in each of them. -/
def initializeHashSet (max_size : Nat) : List (List α) :=
  List.replicate max_size []

/-- The chain whose head is stored in `hash_set[index]`.  An index outside
the array, which no operation below reads on a well-formed table (`WF`), has
the empty chain. -/
def chainAt (hash_set : List (List α)) (index : Nat) : List α :=
  hash_set.getD index []

/-- Source `HashSet(HashFunction hashFunction)`. -/
def new (hashFunction : α → Nat) : HashSet α :=
  { hashFunction := hashFunction
    hash_set := initializeHashSet DEFAULT_CAPACITY
    max_capacity := DEFAULT_CAPACITY
    current_size := 0 }

/-- The loop `while (node != nullptr)` that looks for `element` in a chain. -/
def scan [DecidableEq α] : List α → α → Bool
  | [], _ => false
  | value :: next, element => if value = element then true else scan next element

/-- Source `contains(element)`. -/
def contains [DecidableEq α] (s : HashSet α) (element : α) : Bool :=
  let hash_index := s.hashFunction element % s.max_capacity
  scan (chainAt s.hash_set hash_index) element

/-- Source `addToHashSet(new_hash_set[hash_index], node)`: a new node holding the
value becomes the head of the chain of cell `hash_index`.  The same two
stores end `add` (`new Node{element, hash_set[h_index]}`). -/
def addToHashSet (hash_set : List (List α)) (hash_index : Nat) (value : α) : List (List α) :=
  hash_set.set hash_index (value :: chainAt hash_set hash_index)

/-- The rehash loop of `add`: cells `0 .. max_capacity - 1` of the old array
in order, each chain from its head, every value moved to the head of cell
`hashFunction(value) % new_max_capacity` of the new array. -/
def rehash (hashFunction : α → Nat) (hash_set : List (List α))
    (max_capacity new_max_capacity : Nat) : List (List α) :=
  (List.range max_capacity).foldl
    (fun new_hash_set i =>
      (chainAt hash_set i).foldl
        (fun nhs value => addToHashSet nhs (hashFunction value % new_max_capacity) value)
        new_hash_set)
    (initializeHashSet new_max_capacity)

/-- Source `add(element)`. -/
def add [DecidableEq α] (s : HashSet α) (element : α) : HashSet α :=
  if contains s element then s
  else
    let s1 : HashSet α :=
      if s.current_size + 1 > s.max_capacity then
        let new_max_capacity := s.max_capacity * 2
        { hashFunction := s.hashFunction
          hash_set := rehash s.hashFunction s.hash_set s.max_capacity new_max_capacity
          max_capacity := new_max_capacity
          current_size := s.current_size }
      else s
    let h_index := s1.hashFunction element % s1.max_capacity
    { hashFunction := s1.hashFunction
      hash_set := addToHashSet s1.hash_set h_index element
      max_capacity := s1.max_capacity
      current_size := s1.current_size + 1 }

/-- Source `size()`. -/
def size (s : HashSet α) : Nat := s.current_size

/-- Source `elementsAtIndex(index)`. -/
def elementsAtIndex (s : HashSet α) (index : Nat) : Nat :=
  if index ≥ s.max_capacity then 0 else (chainAt s.hash_set index).length

/-- Source `isElementAtIndex(element, index)`. -/
def isElementAtIndex [DecidableEq α] (s : HashSet α) (element : α) (index : Nat) : Bool :=
  if index ≥ s.max_capacity then false else scan (chainAt s.hash_set index) element

/-- A sequence of `add` calls on a set. -/
def addAll [DecidableEq α] (s : HashSet α) (xs : List α) : HashSet α :=
  xs.foldl add s

/-- The bucket array has `max_capacity` cells, `max_capacity` is positive,
and every value stored in a chain sits in the cell its hash selects. -/
structure WF (s : HashSet α) : Prop where
  len : s.hash_set.length = s.max_capacity
  pos : 0 < s.max_capacity
  home : ∀ i v, v ∈ chainAt s.hash_set i → s.hashFunction v % s.max_capacity = i

/-- One round of the `for` loop of `copyHashSet`, on the chain of `source[i]`
and the chain of `target[i]`: the value is the chain `target[i]` heads
afterwards.  `target_pointer` is a local copy of `target[i]`; with an empty
source chain nothing is written; otherwise the loop writes
`target_pointer->value` and `target_pointer->next` through the head node of
the target chain, which is a null pointer when that chain is empty (`none`),
and which otherwise ends up with the values of the source chain behind it. -/
def copyChain : List α → List α → Option (List α)
  | [], target => some target
  | _ :: _, [] => none
  | value :: next, _ :: _ => some (value :: next)

/-- Source `copyHashSet(source, target, max_size)`: cells `0 .. max_size - 1` in
order. -/
def copyHashSet (source target : List (List α)) (max_size : Nat) : Option (List (List α)) :=
  (List.range max_size).foldlM
    (fun tgt i => (copyChain (chainAt source i) (chainAt tgt i)).map (fun c => tgt.set i c))
    target

/-- Source `HashSet(const HashSet& s)`, the copy constructor: the bucket array
is allocated with `DEFAULT_CAPACITY` cells, `initializeHashSet` then stores
`nullptr` in `max_capacity = s.max_capacity` cells, which is a store outside
the array when `s.max_capacity` exceeds `DEFAULT_CAPACITY` (`none`), and
`copyHashSet` runs on the result. -/
def copy (s : HashSet α) : Option (HashSet α) :=
  if s.max_capacity > DEFAULT_CAPACITY then none
  else
    (copyHashSet s.hash_set (initializeHashSet s.max_capacity) s.max_capacity).map
      (fun hs =>
        { hashFunction := s.hashFunction
          hash_set := hs
          max_capacity := s.max_capacity
          current_size := s.current_size })

end HashSet

/-! ## WordChecker.cpp -/

namespace WordChecker

/-- The local `std::string alphabet = "ABCDEFGHIJKLMNOPQRSTUVWXYZ"` of
`findSuggestions`. -/
def alphabet : List Char :=
  ['A', 'B', 'C', 'D', 'E', 'F', 'G', 'H', 'I', 'J', 'K', 'L', 'M',
   'N', 'O', 'P', 'Q', 'R', 'S', 'T', 'U', 'V', 'W', 'X', 'Y', 'Z']

/-- The number of values of `std::size_t`, the type of `word.size()`. -/
def SIZE_MODULUS : Nat := 2 ^ 64

/-- Source `wordExists(word)`: `words.contains(word)`, the set `words` being
given by its `contains`. -/
def wordExists (words : List Char → Bool) (word : List Char) : Bool :=
  words word

/-- Source `notContains(word, suggestions)`: `std::find` reaches the end. -/
def notContains (word : List Char) (suggestions : List (List Char)) : Bool :=
  decide (word ∉ suggestions)

/-- The statement `if (wordExists(temp) && notContains(temp, suggestions))
suggestions.push_back(temp);` that ends the body of four of the loops. -/
def suggest (words : List Char → Bool) (suggestions : List (List Char))
    (temp : List Char) : List (List Char) :=
  if wordExists words temp && notContains temp suggestions then suggestions ++ [temp]
  else suggestions

/-- The statement `std::swap(temp[i], temp[i + 1])` on a string `temp`.
Positions below `temp.size()` hold the characters; position `temp.size()` is
the terminator, which may only be overwritten with the null character;
positions beyond it are outside the string (`none`). -/
def swapAt (temp : List Char) (i : Nat) : Option (List Char) :=
  match temp[i]?, temp[i + 1]? with
  | some a, some b => some ((temp.set i b).set (i + 1) a)
  | some a, none => if a = Char.ofNat 0 then some temp else none
  | none, _ => none

/-- The loop `for (int i = 0; i < bound; ++i)` of `swapAdjacent`, from the
value `i` on, `bound` being the value of `word.size() - 1`. -/
def swapAdjacentFrom (words : List Char → Bool) (word : List Char) (bound i : Nat)
    (suggestions : List (List Char)) : Option (List (List Char)) :=
  if i < bound then
    match h : swapAt word i with
    | none => none
    | some temp => swapAdjacentFrom words word bound (i + 1) (suggest words suggestions temp)
  else some suggestions
termination_by word.length - i
decreasing_by
  have hi : i < word.length := by
    unfold swapAt at h
    by_contra hge
    rw [List.getElem?_eq_none (Nat.le_of_not_lt hge)] at h
    simp at h
  omega

/-- Source `swapAdjacent(word, suggestions)`; `word.size() - 1` is computed in
`std::size_t`. -/
def swapAdjacent (words : List Char → Bool) (word : List Char)
    (suggestions : List (List Char)) : Option (List (List Char)) :=
  swapAdjacentFrom words word ((word.length + SIZE_MODULUS - 1) % SIZE_MODULUS) 0 suggestions

/-- Source `insertChar(word, suggestions, alphabet)`: `temp.insert(i, letter)`
for every position `i <= word.size()` and every letter. -/
def insertChar (words : List Char → Bool) (word : List Char)
    (suggestions : List (List Char)) : List (List Char) :=
  (List.range (word.length + 1)).foldl
    (fun sugg i =>
      alphabet.foldl (fun sugg c => suggest words sugg (word.take i ++ c :: word.drop i)) sugg)
    suggestions

/-- Source `deleteChar(word, suggestions)`: `temp.erase(i, 1)` for every
position `i < word.size()`. -/
def deleteChar (words : List Char → Bool) (word : List Char)
    (suggestions : List (List Char)) : List (List Char) :=
  (List.range word.length).foldl
    (fun sugg i => suggest words sugg (word.eraseIdx i))
    suggestions

/-- Source `replaceChar(word, suggestions, alphabet)`: for every position
`i < word.size()`, `temp` starts as `word` and `temp.replace(i, 1, letter)`
runs on the same `temp` for every letter in turn. -/
def replaceChar (words : List Char → Bool) (word : List Char)
    (suggestions : List (List Char)) : List (List Char) :=
  (List.range word.length).foldl
    (fun sugg i =>
      (alphabet.foldl
        (fun (st : List Char × List (List Char)) c =>
          (st.1.set i c, suggest words st.2 (st.1.set i c)))
        (word, sugg)).2)
    suggestions

/-- Source `splitWord(word, suggestions)`: for every `i` with
`1 <= i < word.size()`, the halves `word.substr(0, i)` and `word.substr(i)`,
joined by one space when both are words. -/
def splitWord (words : List Char → Bool) (word : List Char)
    (suggestions : List (List Char)) : List (List Char) :=
  (List.range' 1 (word.length - 1)).foldl
    (fun sugg i =>
      if wordExists words (word.take i) && wordExists words (word.drop i) &&
          notContains (word.take i ++ ' ' :: word.drop i) sugg then
        sugg ++ [word.take i ++ ' ' :: word.drop i]
      else sugg)
    suggestions

/-- Source `findSuggestions(word)`. -/
def findSuggestions (words : List Char → Bool) (word : List Char) :
    Option (List (List Char)) :=
  (swapAdjacent words word []).map
    (fun s => splitWord words word (replaceChar words word (deleteChar words word
      (insertChar words word s))))

/-- The candidates of the five passes in the order of their discovery, as the
specification lists them: every adjacent swap, every insertion of a letter at
every position, every deletion of one character and every replacement of one
character by a letter, each kept when it is in the set, and then every split
into two non-empty halves that are both in the set, joined by one space. -/
def candidates (words : List Char → Bool) (word : List Char) : List (List Char) :=
  (((List.range (word.length - 1)).filterMap (swapAt word)
      ++ (List.range (word.length + 1)).flatMap
          (fun i => alphabet.map (fun c => word.take i ++ c :: word.drop i))
      ++ (List.range word.length).map (fun i => word.eraseIdx i)
      ++ (List.range word.length).flatMap (fun i => alphabet.map (fun c => word.set i c))).filter
    (wordExists words))
  ++ ((List.range' 1 (word.length - 1)).filter
        (fun i => wordExists words (word.take i) && wordExists words (word.drop i))).map
      (fun i => word.take i ++ ' ' :: word.drop i)

/-- A list of candidates with every string kept at its first occurrence
only. -/
def firstOccurrences (cands : List (List Char)) : List (List Char) :=
  cands.foldl (fun acc c => if c ∈ acc then acc else acc ++ [c]) []

end WordChecker

end SpellChecker

/-! ## Theorems about AVLSet -/

namespace SpellChecker

namespace AVLSet

variable {α : Type}

/-! ### The values of a tree are kept by `findHeight` and by the rotations -/

theorem inorderHelper_findHeight (t : Node α) :
    inorderHelper (findHeight t).2 = inorderHelper t := by
  induction t with
  | nullptr => rfl
  | node v l r h ihl ihr => simp [findHeight, inorderHelper, ihl, ihr]

theorem inorderHelper_rightRotate (t t' : Node α) (h : rightRotate t = some t') :
    inorderHelper t' = inorderHelper t := by
  match t, h with
  | .node v (.node xv xl xr _) r _, h =>
    simp only [rightRotate, Option.some.injEq] at h
    subst h
    simp [inorderHelper]

theorem inorderHelper_leftRotate (t t' : Node α) (h : leftRotate t = some t') :
    inorderHelper t' = inorderHelper t := by
  match t, h with
  | .node v l (.node xv xl xr _) _, h =>
    simp only [leftRotate, Option.some.injEq] at h
    subst h
    simp [inorderHelper]

theorem inorderHelper_leftRotateLeftChild (t t' : Node α)
    (h : leftRotateLeftChild t = some t') : inorderHelper t' = inorderHelper t := by
  match t, h with
  | .node v l r _, h =>
    simp only [leftRotateLeftChild, Option.map_eq_some'] at h
    obtain ⟨l', hl, rfl⟩ := h
    simp [inorderHelper, inorderHelper_leftRotate l l' hl]

theorem inorderHelper_rightRotateRightChild (t t' : Node α)
    (h : rightRotateRightChild t = some t') : inorderHelper t' = inorderHelper t := by
  match t, h with
  | .node v l r _, h =>
    simp only [rightRotateRightChild, Option.map_eq_some'] at h
    obtain ⟨r', hr, rfl⟩ := h
    simp [inorderHelper, inorderHelper_rightRotate r r' hr]


theorem inorderHelper_doubleLeftRight (t t' : Node α)
    (h : (leftRotateLeftChild t).bind rightRotate = some t') :
    inorderHelper t' = inorderHelper t := by
  obtain ⟨n, hn, hr⟩ := Option.bind_eq_some.mp h
  rw [inorderHelper_rightRotate n t' hr, inorderHelper_leftRotateLeftChild t n hn]

theorem inorderHelper_doubleRightLeft (t t' : Node α)
    (h : (rightRotateRightChild t).bind leftRotate = some t') :
    inorderHelper t' = inorderHelper t := by
  obtain ⟨n, hn, hr⟩ := Option.bind_eq_some.mp h
  rw [inorderHelper_leftRotate n t' hr, inorderHelper_rightRotateRightChild t n hn]

theorem inorderHelper_rebalanceLeftLeft [LinearOrder α] (e : α) (d : Int) (n n' : Node α)
    (h : rebalanceLeftLeft e d n = some n') : inorderHelper n' = inorderHelper n := by
  unfold rebalanceLeftLeft at h
  split_ifs at h
  · obtain ⟨v, _, hv⟩ := Option.bind_eq_some.mp h
    split_ifs at hv
    · exact inorderHelper_rightRotate n n' hv
    · cases hv; rfl
  · cases h; rfl

theorem inorderHelper_rebalanceRightRight [LinearOrder α] (e : α) (d : Int) (n n' : Node α)
    (h : rebalanceRightRight e d n = some n') : inorderHelper n' = inorderHelper n := by
  unfold rebalanceRightRight at h
  split_ifs at h
  · obtain ⟨v, _, hv⟩ := Option.bind_eq_some.mp h
    split_ifs at hv
    · exact inorderHelper_leftRotate n n' hv
    · cases hv; rfl
  · cases h; rfl

theorem inorderHelper_rebalanceLeftRight [LinearOrder α] (e : α) (d : Int) (n n' : Node α)
    (h : rebalanceLeftRight e d n = some n') : inorderHelper n' = inorderHelper n := by
  unfold rebalanceLeftRight at h
  split_ifs at h
  · obtain ⟨v, _, hv⟩ := Option.bind_eq_some.mp h
    split_ifs at hv
    · exact inorderHelper_doubleLeftRight n n' hv
    · cases hv; rfl
  · cases h; rfl

theorem inorderHelper_rebalanceRightLeft [LinearOrder α] (e : α) (d : Int) (n n' : Node α)
    (h : rebalanceRightLeft e d n = some n') : inorderHelper n' = inorderHelper n := by
  unfold rebalanceRightLeft at h
  split_ifs at h
  · obtain ⟨v, _, hv⟩ := Option.bind_eq_some.mp h
    split_ifs at hv
    · exact inorderHelper_doubleRightLeft n n' hv
    · cases hv; rfl
  · cases h; rfl

theorem inorderHelper_rebalance [LinearOrder α] (e : α) (t t' : Node α)
    (h : rebalance e t = some t') : inorderHelper t' = inorderHelper t := by
  unfold rebalance at h
  split at h
  · simp at h
  · rename_i hh v l r hc heq
    have h0 : inorderHelper (Node.node v (findHeight l).2 (findHeight r).2 hh)
        = inorderHelper t := by
      have e1 := inorderHelper_findHeight t
      rw [heq] at e1
      simp only [inorderHelper, inorderHelper_findHeight] at e1 ⊢
      exact e1
    simp only at h
    obtain ⟨n3, h, h4⟩ := Option.bind_eq_some.mp h
    obtain ⟨n2, h, h3⟩ := Option.bind_eq_some.mp h
    obtain ⟨n1, h1, h2⟩ := Option.bind_eq_some.mp h
    rw [inorderHelper_rebalanceRightLeft e _ n3 t' h4,
      inorderHelper_rebalanceLeftRight e _ n2 n3 h3,
      inorderHelper_rebalanceRightRight e _ n1 n2 h2,
      inorderHelper_rebalanceLeftLeft e _ _ n1 h1, h0]


/-! ### `insert` keeps the search-tree order and adds exactly the new value -/

theorem containsHelper_iff [DecidableEq α] (t : Node α) (x : α) :
    containsHelper t x = true ↔ x ∈ inorderHelper t := by
  induction t with
  | nullptr => simp [containsHelper, inorderHelper]
  | node v l r h ihl ihr =>
    by_cases hv : v = x
    · simp [containsHelper, inorderHelper, hv]
    · have hv' : ¬ x = v := fun e => hv e.symm
      simp [containsHelper, inorderHelper, hv, hv', ihl, ihr]

theorem sorted_node_iff [LinearOrder α] (L R : List α) (v : α) :
    (L ++ v :: R).Sorted (· < ·) ↔
      L.Sorted (· < ·) ∧ R.Sorted (· < ·) ∧ (∀ a ∈ L, a < v) ∧ (∀ b ∈ R, v < b) := by
  simp only [List.Sorted, List.pairwise_append, List.pairwise_cons, List.mem_cons]
  constructor
  · rintro ⟨hL, ⟨hv, hR⟩, hc⟩
    exact ⟨hL, hR, fun a ha => hc a ha v (Or.inl rfl), hv⟩
  · rintro ⟨hL, hR, hl, hr⟩
    refine ⟨hL, ⟨hr, hR⟩, ?_⟩
    rintro a ha b (rfl | hb)
    · exact hl a ha
    · exact lt_trans (hl a ha) (hr b hb)

theorem insert_of_contains [LinearOrder α] (root : Node α) (b : Bool) (e : α) (t : Node α)
    (hc : containsHelper root e = true) : insert root b e t = some t := by
  cases t with
  | nullptr => simp [insert, hc]
  | node v l r h => simp [insert, hc]

theorem insert_spec [LinearOrder α] (root : Node α) (b : Bool) (e : α)
    (hc : containsHelper root e = false) (t : Node α) :
    ∀ t', (inorderHelper t).Sorted (· < ·) → e ∉ inorderHelper t →
      insert root b e t = some t' →
      (inorderHelper t').Sorted (· < ·) ∧ (inorderHelper t').Perm (e :: inorderHelper t) := by
  induction t with
  | nullptr =>
    intro t' _ _ h
    simp only [insert, hc, Bool.false_eq_true, if_false] at h
    have hin : inorderHelper t' = [e] := by
      cases b
      · simp only [Bool.false_eq_true, if_false, Option.some.injEq] at h
        subst h; rfl
      · simp only [if_true] at h
        rw [inorderHelper_rebalance e _ t' h]; rfl
    rw [hin]
    exact ⟨List.sorted_singleton e, List.Perm.refl _⟩
  | node v l r hh ihl ihr =>
    intro t' hs hne h
    simp only [insert, hc, Bool.false_eq_true, if_false] at h
    obtain ⟨n, hn, hreb⟩ := Option.bind_eq_some.mp h
    have hin : inorderHelper t' = inorderHelper n := by
      cases b
      · simp only [Bool.false_eq_true, if_false, Option.some.injEq] at hreb
        subst hreb; rfl
      · simp only [if_true] at hreb
        exact inorderHelper_rebalance e _ t' hreb
    rw [hin]
    simp only [inorderHelper] at hs hne ⊢
    obtain ⟨hL, hR, hl, hr⟩ := (sorted_node_iff _ _ v).1 hs
    have hev : e ≠ v := fun h => hne (by simp [h])
    have hel : e ∉ inorderHelper l := fun h => hne (by simp [h])
    have her : e ∉ inorderHelper r := fun h => hne (by simp [h])
    by_cases h1 : v < e
    · rw [if_pos h1] at hn
      obtain ⟨r', hr', rfl⟩ := Option.map_eq_some'.mp hn
      obtain ⟨hs', hp'⟩ := ihr r' hR her hr'
      simp only [inorderHelper]
      refine ⟨(sorted_node_iff _ _ v).2 ⟨hL, hs', hl, ?_⟩, ?_⟩
      · intro x hx
        rcases List.mem_cons.mp (hp'.mem_iff.mp hx) with rfl | hx
        · exact h1
        · exact hr x hx
      · have p1 : (inorderHelper l ++ v :: inorderHelper r').Perm
            (inorderHelper l ++ v :: e :: inorderHelper r) :=
          List.Perm.append_left _ (List.Perm.cons _ hp')
        have p2 : (inorderHelper l ++ v :: e :: inorderHelper r).Perm
            (inorderHelper l ++ e :: v :: inorderHelper r) :=
          List.Perm.append_left _ (List.Perm.swap _ _ _)
        exact p1.trans (p2.trans List.perm_middle)
    · rw [if_neg h1] at hn
      have h2 : v > e := lt_of_le_of_ne (not_lt.mp h1) hev
      rw [if_pos h2] at hn
      obtain ⟨l', hl', rfl⟩ := Option.map_eq_some'.mp hn
      obtain ⟨hs', hp'⟩ := ihl l' hL hel hl'
      simp only [inorderHelper]
      refine ⟨(sorted_node_iff _ _ v).2 ⟨hs', hR, ?_, hr⟩, ?_⟩
      · intro x hx
        rcases List.mem_cons.mp (hp'.mem_iff.mp hx) with rfl | hx
        · exact h2
        · exact hl x hx
      · exact List.Perm.append_right _ hp'


/-! ### Sequences of `add` calls -/

theorem avl_add_spec [LinearOrder α] (s s' : AVLSet α) (x : α)
    (hs : (inorder s).Sorted (· < ·)) (h : add s x = some s') :
    (inorder s').Sorted (· < ·) ∧ (∀ y, y ∈ inorder s' ↔ y ∈ inorder s ∨ y = x) ∧
      s'.balance = s.balance ∧ s'.current_size = s.current_size + 1 := by
  unfold add at h
  obtain ⟨r, hr, rfl⟩ := Option.map_eq_some'.mp h
  refine ⟨?_, ?_, rfl, rfl⟩
  · simp only [inorder] at hs ⊢
    cases hc : containsHelper s.root x
    · exact (insert_spec s.root s.balance x hc s.root r hs
        (fun hx => by simp [(containsHelper_iff s.root x).2 hx] at hc) hr).1
    · rw [insert_of_contains s.root s.balance x s.root hc] at hr
      cases hr; exact hs
  · intro y
    simp only [inorder] at hs ⊢
    cases hc : containsHelper s.root x
    · have hp := (insert_spec s.root s.balance x hc s.root r hs
        (fun hx => by simp [(containsHelper_iff s.root x).2 hx] at hc) hr).2
      rw [hp.mem_iff, List.mem_cons]
      exact or_comm
    · rw [insert_of_contains s.root s.balance x s.root hc] at hr
      cases hr
      constructor
      · exact Or.inl
      · rintro (hy | rfl)
        · exact hy
        · exact (containsHelper_iff s.root y).1 hc

theorem avl_addAll_spec [LinearOrder α] (xs : List α) :
    ∀ s s' : AVLSet α, (inorder s).Sorted (· < ·) → addAll s xs = some s' →
      (inorder s').Sorted (· < ·) ∧ (∀ y, y ∈ inorder s' ↔ y ∈ inorder s ∨ y ∈ xs) ∧
        s'.balance = s.balance ∧ s'.current_size = s.current_size + xs.length := by
  induction xs with
  | nil =>
    intro s s' hs h
    simp only [addAll, Option.some.injEq] at h
    subst h
    simp [hs]
  | cons x xs ih =>
    intro s s' hs h
    simp only [addAll] at h
    obtain ⟨s1, h1, h2⟩ := Option.bind_eq_some.mp h
    obtain ⟨a1, a2, a3, a4⟩ := avl_add_spec s s1 x hs h1
    obtain ⟨b1, b2, b3, b4⟩ := ih s1 s' a1 h2
    refine ⟨b1, ?_, b3.trans a3, ?_⟩
    · intro y
      rw [b2 y, a2 y, List.mem_cons, or_assoc]
    · rw [b4, a4, List.length_cons]
      push_cast
      ring

/-- What a completed sequence of `add` calls on an empty `AVLSet` leaves, with
balancing enabled or disabled: the inorder sequence is the sorted list of the
distinct values added, `contains` answers membership in the added values, and
`size()` is the number of `add` calls. -/
theorem avl_addAll_new_spec [LinearOrder α] (b : Bool) (xs : List α) (s : AVLSet α)
    (h : addAll (new b) xs = some s) :
    inorder s = Finset.sort (· ≤ ·) xs.toFinset ∧
    (∀ x, contains s x = true ↔ x ∈ xs) ∧
    size s = xs.length := by
  have h0 : (inorder (new b : AVLSet α)).Sorted (· < ·) := by
    simp [inorder, new, inorderHelper]
  obtain ⟨h1, h2, _, h4⟩ := avl_addAll_spec xs (new b) s h0 h
  have hmem : ∀ y, y ∈ inorder s ↔ y ∈ xs := by
    intro y
    rw [h2 y]
    simp [inorder, new, inorderHelper]
  refine ⟨?_, ?_, ?_⟩
  · have hfin : (inorder s).toFinset = xs.toFinset := by
      ext y
      simp [hmem y]
    rw [← hfin]
    exact ((List.toFinset_sort (· ≤ ·) h1.nodup).2 h1.le_of_lt).symm
  · intro x
    rw [contains, containsHelper_iff]
    exact hmem x
  · rw [size, h4]
    simp [new]

theorem insert_unbalanced_isSome [LinearOrder α] (root : Node α) (e : α) (t : Node α) :
    ∃ t', insert root false e t = some t' := by
  induction t with
  | nullptr =>
    cases hc : containsHelper root e <;> simp [insert, hc]
  | node v l r h ihl ihr =>
    obtain ⟨l', hl'⟩ := ihl
    obtain ⟨r', hr'⟩ := ihr
    cases hc : containsHelper root e
    · by_cases h1 : v < e
      · simp [insert, hc, h1, hr']
      · by_cases h2 : v > e
        · simp [insert, hc, h1, h2, hl']
        · simp [insert, hc, h1, h2]
    · simp [insert, hc]

/-- With balancing disabled every sequence of `add` calls completes. -/
theorem addAll_unbalanced_isSome [LinearOrder α] (xs : List α) :
    ∀ s : AVLSet α, s.balance = false → ∃ s', addAll s xs = some s' := by
  induction xs with
  | nil => intro s _; exact ⟨s, rfl⟩
  | cons x xs ih =>
    intro s hb
    obtain ⟨r, hr⟩ := insert_unbalanced_isSome s.root x s.root
    have h1 : add s x = some ⟨r, s.balance, s.current_size + 1⟩ := by
      simp [add, hb, hr]
    obtain ⟨s', hs'⟩ := ih ⟨r, s.balance, s.current_size + 1⟩ hb
    exact ⟨s', by simp [addAll, h1, hs']⟩

end AVLSet

/-! ### Claims about AVLSet -/

/-- C1 (fails on the code): with balancing enabled, the adds 9, 7, 6, 5, 2, 3
leave node 5 with an absent left subtree (height -1) and a right subtree of
height 1, a balance factor of -2.  At the add of 3 the first `if` of the
rebalancing block rotates right at 7, and the third `if`, which reads the
rotated `node` with the old `height_difference`, then rotates twice more. -/
theorem avl_balance_invariant_broken :
    AVLSet.addAll (AVLSet.new true : AVLSet Int) [9, 7, 6, 5, 2, 3] =
      some { root :=
               .node 3 (.node 2 .nullptr .nullptr 1)
                 (.node 5 .nullptr
                   (.node 7 (.node 6 .nullptr .nullptr 0) (.node 9 .nullptr .nullptr 0) 1) 2) 3
             balance := true
             current_size := 6 } ∧
    (AVLSet.findHeight (AVLSet.Node.nullptr : AVLSet.Node Int)).1
      - (AVLSet.findHeight
          (AVLSet.Node.node (7 : Int) (.node 6 .nullptr .nullptr 0)
            (.node 9 .nullptr .nullptr 0) 1)).1 = -2 ∧
    (AVLSet.addAll (AVLSet.new true : AVLSet Int) [9, 7, 6, 5, 2, 3]).map
      (fun s => AVLSet.balanced s.root) = some false := by
  decide

/-- C2 (fails on the code): with balancing enabled, after the adds
9, 7, 6, 5, 2, 3, 8, 4 the call `add(1)` reaches `rightRotate(node->right)` at
the root with `node->right->left == nullptr` and dereferences it, so the
sequence of nine adds yields no set and no inorder sequence.  The example of
the claim, the adds 5, 3, 8, 1, 4, 7, 9, does give inorder 1, 3, 4, 5, 7, 8, 9
and height 2. -/
theorem avl_inorder_lost_to_null_dereference :
    AVLSet.addAll (AVLSet.new true : AVLSet Int) [9, 7, 6, 5, 2, 3, 8, 4] =
      some { root :=
               .node 4 (.node 3 (.node 2 .nullptr .nullptr 0) .nullptr 1)
                 (.node 5 .nullptr
                   (.node 8 (.node 7 (.node 6 .nullptr .nullptr 0) .nullptr 1)
                     (.node 9 .nullptr .nullptr 0) 2) 3) 4
             balance := true
             current_size := 8 } ∧
    (AVLSet.addAll (AVLSet.new true : AVLSet Int) [9, 7, 6, 5, 2, 3, 8, 4, 1]).map
      AVLSet.inorder = none ∧
    (AVLSet.addAll (AVLSet.new true : AVLSet Int) [5, 3, 8, 1, 4, 7, 9]).map
      (fun s => (AVLSet.inorder s, AVLSet.height s)) = some ([1, 3, 4, 5, 7, 8, 9], 2) := by
  decide

/-- C3 (fails on the code): `add` increments `current_size` after every call of
`insert`, so adding the value 1 twice gives `size() == 2`, with balancing
enabled or disabled, while one distinct value was added. -/
theorem avl_size_counts_duplicate_add :
    (AVLSet.addAll (AVLSet.new true : AVLSet Int) [1, 1]).map AVLSet.size = some 2 ∧
    (AVLSet.addAll (AVLSet.new false : AVLSet Int) [1, 1]).map AVLSet.size = some 2 ∧
    (AVLSet.addAll (AVLSet.new true : AVLSet Int) [1, 1]).map AVLSet.inorder = some [1] ∧
    ([1, 1] : List Int).dedup.length = 1 := by
  decide

/-- C4 (fails on the code): with balancing enabled, the adds
1, 3, 4, 5, 8, 7, 2, 6 succeed and the call `add(9)` then reaches
`leftRotate(node->left)` at the root with `node->left->right == nullptr`; the
nine adds yield no set, so `contains(9)` has no answer after them. -/
theorem avl_contains_lost_to_null_dereference :
    (AVLSet.addAll (AVLSet.new true : AVLSet Int) [1, 3, 4, 5, 8, 7, 2, 6]).map
      (fun s => AVLSet.contains s 8) = some true ∧
    (AVLSet.addAll (AVLSet.new true : AVLSet Int) [1, 3, 4, 5, 8, 7, 2, 6, 9]).map
      (fun s => AVLSet.contains s 9) = none := by
  decide

end SpellChecker

/-! ## Theorems about HashSet -/

namespace SpellChecker
namespace HashSet
variable {α : Type}

theorem scan_eq_true_iff [DecidableEq α] (chain : List α) (element : α) :
    scan chain element = true ↔ element ∈ chain := by
  induction chain with
  | nil => simp [scan]
  | cons value next ih =>
    by_cases h : value = element
    · simp [scan, h]
    · have h' : ¬ element = value := fun e => h e.symm
      simp [scan, h, h', ih]

theorem length_addToHashSet (hs : List (List α)) (i : Nat) (v : α) :
    (addToHashSet hs i v).length = hs.length := by
  simp [addToHashSet]

theorem chainAt_addToHashSet (hs : List (List α)) (i j : Nat) (v : α) (hi : i < hs.length) :
    chainAt (addToHashSet hs i v) j = if j = i then v :: chainAt hs i else chainAt hs j := by
  unfold chainAt addToHashSet
  by_cases h : j = i
  · subst h
    simp [chainAt, List.getD_eq_getElem?_getD, hi]
  · have h' : ¬ i = j := fun e => h e.symm
    simp [chainAt, List.getD_eq_getElem?_getD, List.getElem?_set, h, h']

theorem chainAt_of_length_le (hs : List (List α)) (i : Nat) (h : hs.length ≤ i) :
    chainAt hs i = [] := by
  simp [chainAt, List.getD_eq_getElem?_getD, List.getElem?_eq_none h]

theorem chainAt_initializeHashSet (n i : Nat) :
    chainAt (initializeHashSet n : List (List α)) i = [] := by
  unfold chainAt initializeHashSet
  by_cases h : i < n
  · simp [List.getD_eq_getElem?_getD, h]
  · simp [List.getD_eq_getElem?_getD, h]

theorem foldl_chain_spec (hf : α → Nat) (n : Nat) (chain : List α) :
    ∀ acc : List (List α), acc.length = n →
      (chain.foldl (fun nhs value => addToHashSet nhs (hf value % n) value) acc).length = n ∧
      ∀ j w, w ∈ chainAt
          (chain.foldl (fun nhs value => addToHashSet nhs (hf value % n) value) acc) j ↔
        w ∈ chainAt acc j ∨ (w ∈ chain ∧ hf w % n = j ∧ j < n) := by
  induction chain with
  | nil => intro acc hacc; simp [hacc]
  | cons v rest ih =>
    intro acc hacc
    have hlen : (addToHashSet acc (hf v % n) v).length = n := by
      rw [length_addToHashSet, hacc]
    obtain ⟨h1, h2⟩ := ih (addToHashSet acc (hf v % n) v) hlen
    refine ⟨by simpa using h1, ?_⟩
    intro j w
    simp only [List.foldl_cons]
    rw [h2 j w]
    by_cases hn : hf v % n < n
    · rw [chainAt_addToHashSet acc (hf v % n) j v (by omega)]
      by_cases hj : j = hf v % n
      · subst hj
        simp only [if_true, List.mem_cons]
        constructor
        · rintro ((rfl | h) | h)
          · exact Or.inr ⟨Or.inl rfl, rfl, hn⟩
          · exact Or.inl h
          · exact Or.inr ⟨Or.inr h.1, h.2⟩
        · rintro (h | ⟨rfl | h, h'⟩)
          · exact Or.inl (Or.inr h)
          · exact Or.inl (Or.inl rfl)
          · exact Or.inr ⟨h, h'⟩
      · simp only [hj, if_false, List.mem_cons]
        constructor
        · rintro (h | h)
          · exact Or.inl h
          · exact Or.inr ⟨Or.inr h.1, h.2⟩
        · rintro (h | ⟨rfl | h, h'⟩)
          · exact Or.inl h
          · exact absurd h'.1.symm hj
          · exact Or.inr ⟨h, h'⟩
    · have hn0 : n = 0 := by
        by_contra hne
        exact hn (Nat.mod_lt _ (Nat.pos_of_ne_zero hne))
      subst hn0
      have e1 : ∀ a : List (List α), a.length = 0 → ∀ k, chainAt a k = [] :=
        fun a ha k => chainAt_of_length_le a k (by omega)
      rw [e1 _ hlen, e1 _ hacc]
      simp

theorem foldl_cells_spec (hf : α → Nat) (n : Nat) (hs : List (List α)) (cells : List Nat) :
    ∀ acc : List (List α), acc.length = n →
      (cells.foldl (fun new_hash_set i =>
          (chainAt hs i).foldl
            (fun nhs value => addToHashSet nhs (hf value % n) value) new_hash_set)
        acc).length = n ∧
      ∀ j w, w ∈ chainAt
          (cells.foldl (fun new_hash_set i =>
              (chainAt hs i).foldl
                (fun nhs value => addToHashSet nhs (hf value % n) value) new_hash_set)
            acc) j ↔
        w ∈ chainAt acc j ∨ ((∃ i ∈ cells, w ∈ chainAt hs i) ∧ hf w % n = j ∧ j < n) := by
  induction cells with
  | nil => intro acc hacc; simp [hacc]
  | cons c rest ih =>
    intro acc hacc
    obtain ⟨g1, g2⟩ := foldl_chain_spec hf n (chainAt hs c) acc hacc
    obtain ⟨h1, h2⟩ := ih _ g1
    refine ⟨by simpa using h1, ?_⟩
    intro j w
    simp only [List.foldl_cons]
    rw [h2 j w, g2 j w]
    constructor
    · rintro ((h | h) | h)
      · exact Or.inl h
      · exact Or.inr ⟨⟨c, List.mem_cons_self _ _, h.1⟩, h.2⟩
      · obtain ⟨⟨i, hi, hw⟩, h'⟩ := h
        exact Or.inr ⟨⟨i, List.mem_cons_of_mem _ hi, hw⟩, h'⟩
    · rintro (h | ⟨⟨i, hi, hw⟩, h'⟩)
      · exact Or.inl (Or.inl h)
      · rcases List.mem_cons.mp hi with rfl | hi
        · exact Or.inl (Or.inr ⟨hw, h'⟩)
        · exact Or.inr ⟨⟨i, hi, hw⟩, h'⟩

theorem rehash_spec (hf : α → Nat) (hs : List (List α)) (cap n : Nat) :
    (rehash hf hs cap n).length = n ∧
    ∀ j w, w ∈ chainAt (rehash hf hs cap n) j ↔
      (∃ i, i < cap ∧ w ∈ chainAt hs i) ∧ hf w % n = j ∧ j < n := by
  have hinit : (initializeHashSet n : List (List α)).length = n := by simp [initializeHashSet]
  obtain ⟨h1, h2⟩ := foldl_cells_spec hf n hs (List.range cap) _ hinit
  refine ⟨h1, ?_⟩
  intro j w
  unfold rehash
  rw [h2 j w, chainAt_initializeHashSet]
  simp [List.mem_range]

theorem WF_new (hf : α → Nat) : WF (new hf) where
  len := by simp [new, initializeHashSet]
  pos := by simp [new, DEFAULT_CAPACITY]
  home := by
    intro i v h
    simp [new, chainAt_initializeHashSet] at h

theorem contains_iff [DecidableEq α] (s : HashSet α) (hs : WF s) (v : α) :
    contains s v = true ↔ ∃ i, v ∈ chainAt s.hash_set i := by
  unfold contains
  simp only [scan_eq_true_iff]
  constructor
  · intro h; exact ⟨_, h⟩
  · rintro ⟨i, h⟩
    rw [hs.home i v h]; exact h

theorem WF_rehash (s : HashSet α) (hs : WF s) :
    WF { hashFunction := s.hashFunction
         hash_set := rehash s.hashFunction s.hash_set s.max_capacity (s.max_capacity * 2)
         max_capacity := s.max_capacity * 2
         current_size := s.current_size } where
  len := (rehash_spec _ _ _ _).1
  pos := by have := hs.pos; simp; omega
  home := by
    intro i v h
    exact (((rehash_spec _ _ _ _).2 i v).1 h).2.1

theorem mem_rehash (s : HashSet α) (hs : WF s) (v : α) :
    (∃ j, v ∈ chainAt (rehash s.hashFunction s.hash_set s.max_capacity (s.max_capacity * 2)) j) ↔
      ∃ i, v ∈ chainAt s.hash_set i := by
  have hp := hs.pos
  constructor
  · rintro ⟨j, h⟩
    obtain ⟨⟨i, _, hi⟩, _⟩ := ((rehash_spec _ _ _ _).2 j v).1 h
    exact ⟨i, hi⟩
  · rintro ⟨i, h⟩
    refine ⟨s.hashFunction v % (s.max_capacity * 2), ((rehash_spec _ _ _ _).2 _ v).2 ⟨⟨i, ?_, h⟩, rfl, ?_⟩⟩
    · rw [← hs.home i v h]; exact Nat.mod_lt _ hp
    · exact Nat.mod_lt _ (by omega)

theorem WF_addHead (s : HashSet α) (hs : WF s) (x : α) :
    WF { hashFunction := s.hashFunction
         hash_set := addToHashSet s.hash_set (s.hashFunction x % s.max_capacity) x
         max_capacity := s.max_capacity
         current_size := s.current_size + 1 } where
  len := by simp [length_addToHashSet, hs.len]
  pos := hs.pos
  home := by
    intro i v h
    have hlt : s.hashFunction x % s.max_capacity < s.hash_set.length := by
      rw [hs.len]; exact Nat.mod_lt _ hs.pos
    simp only at h
    rw [chainAt_addToHashSet _ _ _ _ hlt] at h
    simp only
    by_cases hi : i = s.hashFunction x % s.max_capacity
    · rw [if_pos hi] at h
      rcases List.mem_cons.mp h with rfl | h
      · exact hi.symm
      · rw [hi]; exact hs.home _ v h
    · rw [if_neg hi] at h
      exact hs.home i v h

theorem mem_addHead (s : HashSet α) (hs : WF s) (x v : α) :
    (∃ j, v ∈ chainAt (addToHashSet s.hash_set (s.hashFunction x % s.max_capacity) x) j) ↔
      (∃ i, v ∈ chainAt s.hash_set i) ∨ v = x := by
  have hlt : s.hashFunction x % s.max_capacity < s.hash_set.length := by
    rw [hs.len]; exact Nat.mod_lt _ hs.pos
  constructor
  · rintro ⟨j, h⟩
    rw [chainAt_addToHashSet _ _ _ _ hlt] at h
    by_cases hj : j = s.hashFunction x % s.max_capacity
    · rw [if_pos hj] at h
      rcases List.mem_cons.mp h with rfl | h
      · exact Or.inr rfl
      · exact Or.inl ⟨_, h⟩
    · rw [if_neg hj] at h
      exact Or.inl ⟨j, h⟩
  · rintro (⟨i, h⟩ | rfl)
    · refine ⟨i, ?_⟩
      rw [chainAt_addToHashSet _ _ _ _ hlt]
      by_cases hi : i = s.hashFunction x % s.max_capacity
      · rw [if_pos hi, ← hi]; exact List.mem_cons_of_mem _ h
      · rw [if_neg hi]; exact h
    · refine ⟨s.hashFunction v % s.max_capacity, ?_⟩
      rw [chainAt_addToHashSet _ _ _ _ hlt, if_pos rfl]
      exact List.mem_cons_self _ _

theorem add_of_contains [DecidableEq α] (s : HashSet α) (x : α) (hc : contains s x = true) :
    add s x = s := by
  simp [add, hc]

theorem add_of_grow [DecidableEq α] (s : HashSet α) (x : α) (hc : contains s x = false)
    (hg : s.current_size + 1 > s.max_capacity) :
    add s x =
      { hashFunction := s.hashFunction
        hash_set := addToHashSet
          (rehash s.hashFunction s.hash_set s.max_capacity (s.max_capacity * 2))
          (s.hashFunction x % (s.max_capacity * 2)) x
        max_capacity := s.max_capacity * 2
        current_size := s.current_size + 1 } := by
  simp [add, hc, hg]

theorem add_of_room [DecidableEq α] (s : HashSet α) (x : α) (hc : contains s x = false)
    (hg : ¬ s.current_size + 1 > s.max_capacity) :
    add s x =
      { hashFunction := s.hashFunction
        hash_set := addToHashSet s.hash_set (s.hashFunction x % s.max_capacity) x
        max_capacity := s.max_capacity
        current_size := s.current_size + 1 } := by
  simp only [add, hc, if_neg hg]
  simp

theorem WF_add [DecidableEq α] (s : HashSet α) (hs : WF s) (x : α) : WF (add s x) := by
  cases hc : contains s x
  · by_cases hg : s.current_size + 1 > s.max_capacity
    · rw [add_of_grow s x hc hg]
      exact WF_addHead _ (WF_rehash s hs) x
    · rw [add_of_room s x hc hg]
      exact WF_addHead _ hs x
  · rw [add_of_contains s x hc]; exact hs

theorem contains_add [DecidableEq α] (s : HashSet α) (hs : WF s) (x v : α) :
    contains (add s x) v = true ↔ contains s v = true ∨ v = x := by
  rw [contains_iff _ (WF_add s hs x), contains_iff s hs]
  cases hc : contains s x
  · by_cases hg : s.current_size + 1 > s.max_capacity
    · rw [add_of_grow s x hc hg]
      have h := mem_addHead _ (WF_rehash s hs) x v
      simp only at h
      rw [h, mem_rehash s hs v]
    · rw [add_of_room s x hc hg]
      exact mem_addHead s hs x v
  · rw [add_of_contains s x hc]
    constructor
    · exact Or.inl
    · rintro (h | rfl)
      · exact h
      · exact (contains_iff s hs v).1 hc

theorem current_size_add [DecidableEq α] (s : HashSet α) (x : α) :
    (add s x).current_size =
      if contains s x = true then s.current_size else s.current_size + 1 := by
  cases hc : contains s x
  · by_cases hg : s.current_size + 1 > s.max_capacity
    · rw [add_of_grow s x hc hg]; simp
    · rw [add_of_room s x hc hg]; simp
  · rw [add_of_contains s x hc]; simp

theorem max_capacity_add [DecidableEq α] (s : HashSet α) (x : α)
    (hc : contains s x = false) :
    (add s x).max_capacity =
      if s.current_size + 1 > s.max_capacity then s.max_capacity * 2 else s.max_capacity := by
  by_cases hg : s.current_size + 1 > s.max_capacity
  · rw [add_of_grow s x hc hg, if_pos hg]
  · rw [add_of_room s x hc hg, if_neg hg]

theorem addAll_append [DecidableEq α] (s : HashSet α) (xs : List α) (x : α) :
    addAll s (xs ++ [x]) = add (addAll s xs) x := by
  simp [addAll, List.foldl_append]

theorem contains_new [DecidableEq α] (hf : α → Nat) (v : α) : contains (new hf) v = false := by
  cases h : contains (new hf) v
  · rfl
  · obtain ⟨i, hi⟩ := (contains_iff _ (WF_new hf) v).1 h
    simp [new, chainAt_initializeHashSet] at hi

/-- What holds after any sequence of `add` calls on a fresh set: the table is
well formed, `contains` answers membership in the sequence, and
`current_size` counts the distinct values. -/
theorem hash_addAll_new_spec [DecidableEq α] (hf : α → Nat) (xs : List α) :
    WF (addAll (new hf) xs) ∧
    (∀ v, contains (addAll (new hf) xs) v = true ↔ v ∈ xs) ∧
    (addAll (new hf) xs).current_size = xs.toFinset.card := by
  induction xs using List.reverseRecOn with
  | nil =>
    refine ⟨WF_new hf, ?_, rfl⟩
    intro v
    simp [addAll, contains_new]
  | append_singleton xs x ih =>
    obtain ⟨hwf, hmem, hsize⟩ := ih
    rw [addAll_append]
    refine ⟨WF_add _ hwf x, ?_, ?_⟩
    · intro v
      rw [contains_add _ hwf, hmem v]
      simp
    · rw [current_size_add, hsize]
      by_cases hx : x ∈ xs
      · have hc : contains (addAll (new hf) xs) x = true := (hmem x).2 hx
        rw [if_pos hc]
        congr 1
        ext v
        simp only [List.mem_toFinset, List.mem_append, List.mem_singleton]
        constructor
        · exact Or.inl
        · rintro (h | rfl)
          · exact h
          · exact hx
      · have hc : ¬ contains (addAll (new hf) xs) x = true := fun h => hx ((hmem x).1 h)
        rw [if_neg hc]
        have e : (xs ++ [x]).toFinset = insert x xs.toFinset := by
          ext v
          simp only [List.mem_toFinset, List.mem_append, List.mem_singleton, Finset.mem_insert]
          exact or_comm
        rw [e, Finset.card_insert_of_not_mem (by simpa using hx)]

theorem hashFunction_add [DecidableEq α] (s : HashSet α) (x : α) :
    (add s x).hashFunction = s.hashFunction := by
  cases hc : contains s x
  · by_cases hg : s.current_size + 1 > s.max_capacity
    · rw [add_of_grow s x hc hg]
    · rw [add_of_room s x hc hg]
  · rw [add_of_contains s x hc]

theorem hashFunction_addAll [DecidableEq α] (s : HashSet α) (xs : List α) :
    (addAll s xs).hashFunction = s.hashFunction := by
  induction xs using List.reverseRecOn with
  | nil => rfl
  | append_singleton ys y ih => rw [addAll_append, hashFunction_add, ih]

theorem contains_add_self [DecidableEq α] (s : HashSet α) (hs : WF s) (x : α) :
    contains (add s x) x = true :=
  (contains_add s hs x x).2 (Or.inr rfl)

end HashSet

/-! ### Claims about HashSet -/

/-- C5 (fails on the code): the resize test of `add` is
`current_size + 1 > max_capacity`, not `(size + 1) / capacity > 0.8`.  With the
identity hash, nine and ten distinct adds leave the capacity at 10; the
capacity becomes 20 only at the eleventh distinct add. -/
theorem hashset_resize_trigger_at_full_table :
    (HashSet.addAll (HashSet.new (fun n : Nat => n)) [0, 1, 2, 3, 4, 5, 6, 7, 8]).max_capacity = 10 ∧
    (HashSet.addAll (HashSet.new (fun n : Nat => n)) [0, 1, 2, 3, 4, 5, 6, 7, 8, 9]).max_capacity
      = 10 ∧
    (HashSet.addAll (HashSet.new (fun n : Nat => n))
      [0, 1, 2, 3, 4, 5, 6, 7, 8, 9, 10]).max_capacity = 20 := by
  decide

/-- C6 (fails on the code): after nine distinct adds with the identity hash
the set has size 9 and capacity 10, so `5 * size <= 4 * capacity` is false. -/
theorem hashset_load_factor_exceeds_bound :
    (HashSet.addAll (HashSet.new (fun n : Nat => n)) [0, 1, 2, 3, 4, 5, 6, 7, 8]).size = 9 ∧
    (HashSet.addAll (HashSet.new (fun n : Nat => n)) [0, 1, 2, 3, 4, 5, 6, 7, 8]).max_capacity = 10 ∧
    ¬ (5 * (HashSet.addAll (HashSet.new (fun n : Nat => n)) [0, 1, 2, 3, 4, 5, 6, 7, 8]).size
        ≤ 4 * (HashSet.addAll (HashSet.new (fun n : Nat => n))
            [0, 1, 2, 3, 4, 5, 6, 7, 8]).max_capacity) := by
  decide

/-- C7: after any sequence of `add` calls on a fresh `HashSet`, with any hash
function, an element `e` that was added is reported by `isElementAtIndex` at
index `hash(e) mod capacity` and at no other index, in or out of range. -/
theorem hashset_bucket_fidelity {α : Type} [DecidableEq α] (hashFunction : α → Nat)
    (xs : List α) (e : α) (he : e ∈ xs) (i : Nat) :
    HashSet.isElementAtIndex (HashSet.addAll (HashSet.new hashFunction) xs) e i = true ↔
      i = hashFunction e % (HashSet.addAll (HashSet.new hashFunction) xs).max_capacity := by
  obtain ⟨hwf, hmem, _⟩ := HashSet.hash_addAll_new_spec hashFunction xs
  have hhf : (HashSet.addAll (HashSet.new hashFunction) xs).hashFunction = hashFunction :=
    HashSet.hashFunction_addAll _ xs
  have hc := (hmem e).2 he
  unfold HashSet.contains at hc
  simp only [hhf, HashSet.scan_eq_true_iff] at hc
  unfold HashSet.isElementAtIndex
  constructor
  · intro h
    by_cases hi : i ≥ (HashSet.addAll (HashSet.new hashFunction) xs).max_capacity
    · simp [hi] at h
    · rw [if_neg hi, HashSet.scan_eq_true_iff] at h
      have := hwf.home i e h
      rw [hhf] at this
      exact this.symm
  · intro h
    have hlt : ¬ i ≥ (HashSet.addAll (HashSet.new hashFunction) xs).max_capacity := by
      rw [h]; exact Nat.not_le.mpr (Nat.mod_lt _ hwf.pos)
    rw [if_neg hlt, HashSet.scan_eq_true_iff, h]
    exact hc

/-- Witness for C7 at the identity hash, adds 3, 13, 3 and element 13. -/
theorem hashset_bucket_fidelity_witness :
    (13 : Nat) ∈ [3, 13, 3] ∧
    (HashSet.isElementAtIndex (HashSet.addAll (HashSet.new (fun n : Nat => n)) [3, 13, 3]) 13 3
        = true ↔
      3 = (fun n : Nat => n) 13 %
        (HashSet.addAll (HashSet.new (fun n : Nat => n)) [3, 13, 3]).max_capacity) :=
  ⟨by decide, hashset_bucket_fidelity (fun n : Nat => n) [3, 13, 3] 13 (by decide) 3⟩

/-- C8: after any sequence of `add` calls on a fresh `HashSet`, with any hash
function, `contains(x)` is true exactly when `x` is one of the values added;
resizes included, since the sequence is arbitrary. -/
theorem hashset_contains_iff_added {α : Type} [DecidableEq α] (hashFunction : α → Nat)
    (xs : List α) (x : α) :
    HashSet.contains (HashSet.addAll (HashSet.new hashFunction) xs) x = true ↔ x ∈ xs :=
  (HashSet.hash_addAll_new_spec hashFunction xs).2.1 x

/-- C9: after any sequence of `add` calls on a fresh `HashSet`, with any hash
function, `size()` is the number of distinct values passed to `add`. -/
theorem hashset_size_eq_distinct {α : Type} [DecidableEq α] (hashFunction : α → Nat)
    (xs : List α) :
    HashSet.size (HashSet.addAll (HashSet.new hashFunction) xs) = xs.dedup.length := by
  rw [← List.card_toFinset]
  exact (HashSet.hash_addAll_new_spec hashFunction xs).2.2

/-- C10: on every `HashSet` reached from the constructor by `add` calls,
`add(x)` twice in a row gives the same state (hash function, bucket array,
capacity, size) as `add(x)` once, and `add(x)` on a set that already contains
`x` returns the set unchanged. -/
theorem hashset_add_idempotent {α : Type} [DecidableEq α] (hashFunction : α → Nat)
    (xs : List α) (x : α) :
    HashSet.add (HashSet.add (HashSet.addAll (HashSet.new hashFunction) xs) x) x
      = HashSet.add (HashSet.addAll (HashSet.new hashFunction) xs) x ∧
    (HashSet.contains (HashSet.addAll (HashSet.new hashFunction) xs) x = true →
      HashSet.add (HashSet.addAll (HashSet.new hashFunction) xs) x
        = HashSet.addAll (HashSet.new hashFunction) xs) := by
  obtain ⟨hwf, _, _⟩ := HashSet.hash_addAll_new_spec hashFunction xs
  exact ⟨HashSet.add_of_contains _ x (HashSet.contains_add_self _ hwf x),
    HashSet.add_of_contains _ x⟩

/-- Witness for C10: the identity hash, adds 1, 2, and a second `add(2)`. -/
theorem hashset_add_idempotent_witness :
    HashSet.contains (HashSet.addAll (HashSet.new (fun n : Nat => n)) [1, 2]) 2 = true ∧
    HashSet.add (HashSet.addAll (HashSet.new (fun n : Nat => n)) [1, 2]) 2
      = HashSet.addAll (HashSet.new (fun n : Nat => n)) [1, 2] :=
  ⟨by decide, (hashset_add_idempotent (fun n : Nat => n) [1, 2] 2).2 (by decide)⟩

end SpellChecker

/-! ## Bucket counts of HashSet -/

namespace SpellChecker
namespace HashSet
variable {α : Type}

theorem sum_length_addToHashSet (hs : List (List α)) (v : α) :
    ∀ i, i < hs.length →
      ((addToHashSet hs i v).map List.length).sum = (hs.map List.length).sum + 1 := by
  induction hs with
  | nil => intro i hi; simp at hi
  | cons c cs ih =>
    intro i hi
    cases i with
    | zero => simp [addToHashSet, chainAt]; omega
    | succ k =>
      have hk : k < cs.length := by simpa using hi
      have := ih k hk
      simp only [addToHashSet, chainAt, List.getD_cons_succ, List.set_cons_succ, List.map_cons,
        List.sum_cons] at this ⊢
      omega

theorem sum_length_foldl_chain (hf : α → Nat) (n : Nat) (hn : 0 < n) (chain : List α) :
    ∀ acc : List (List α), acc.length = n →
      ((chain.foldl (fun nhs value => addToHashSet nhs (hf value % n) value) acc).map
        List.length).sum = (acc.map List.length).sum + chain.length := by
  induction chain with
  | nil => intro acc _; simp
  | cons v rest ih =>
    intro acc hacc
    have hlt : hf v % n < acc.length := by rw [hacc]; exact Nat.mod_lt _ hn
    have hlen : (addToHashSet acc (hf v % n) v).length = n := by
      rw [length_addToHashSet, hacc]
    simp only [List.foldl_cons, List.length_cons]
    rw [ih _ hlen, sum_length_addToHashSet acc v _ hlt]
    omega

theorem sum_length_foldl_cells (hf : α → Nat) (n : Nat) (hn : 0 < n) (hs : List (List α))
    (cells : List Nat) :
    ∀ acc : List (List α), acc.length = n →
      ((cells.foldl (fun new_hash_set i =>
          (chainAt hs i).foldl
            (fun nhs value => addToHashSet nhs (hf value % n) value) new_hash_set)
        acc).map List.length).sum
        = (acc.map List.length).sum + (cells.map (fun i => (chainAt hs i).length)).sum := by
  induction cells with
  | nil => intro acc _; simp
  | cons c rest ih =>
    intro acc hacc
    have hlen := (foldl_chain_spec hf n (chainAt hs c) acc hacc).1
    simp only [List.foldl_cons, List.map_cons, List.sum_cons]
    rw [ih _ hlen, sum_length_foldl_chain hf n hn (chainAt hs c) acc hacc]
    omega

theorem sum_length_range (hs : List (List α)) :
    ∀ N, hs.length ≤ N →
      ((List.range N).map (fun i => (chainAt hs i).length)).sum = (hs.map List.length).sum := by
  induction hs with
  | nil =>
    intro N _
    have : ∀ i, (chainAt ([] : List (List α)) i).length = 0 := by
      intro i; simp [chainAt]
    simp [this]
  | cons c cs ih =>
    intro N hN
    cases N with
    | zero => simp at hN
    | succ M =>
      have hM : cs.length ≤ M := by simpa using hN
      rw [List.range_succ_eq_map]
      simp only [List.map_cons, List.sum_cons, List.map_map]
      have e : ((fun i => (chainAt (c :: cs) i).length) ∘ Nat.succ)
          = fun i => (chainAt cs i).length := by
        funext i
        simp [chainAt]
      rw [e, ih M hM]
      simp [chainAt]

theorem sum_length_rehash (hf : α → Nat) (hs : List (List α)) (n : Nat) (hn : 0 < n) :
    ((rehash hf hs hs.length n).map List.length).sum = (hs.map List.length).sum := by
  unfold rehash
  rw [sum_length_foldl_cells hf n hn hs (List.range hs.length) _
    (by simp [initializeHashSet]), sum_length_range hs hs.length (le_refl _)]
  simp [initializeHashSet]

theorem sum_length_add [DecidableEq α] (s : HashSet α) (hs : WF s) (x : α)
    (h : (s.hash_set.map List.length).sum = s.current_size) :
    ((add s x).hash_set.map List.length).sum = (add s x).current_size := by
  have hp := hs.pos
  cases hc : contains s x
  · by_cases hg : s.current_size + 1 > s.max_capacity
    · rw [add_of_grow s x hc hg]
      simp only
      have hw := WF_rehash s hs
      rw [sum_length_addToHashSet _ x _ (by rw [hw.len]; exact Nat.mod_lt _ hw.pos)]
      have e := sum_length_rehash s.hashFunction s.hash_set (s.max_capacity * 2) (by omega)
      rw [hs.len] at e
      rw [e, h]
    · rw [add_of_room s x hc hg]
      simp only
      rw [sum_length_addToHashSet _ x _ (by rw [hs.len]; exact Nat.mod_lt _ hp), h]
  · rw [add_of_contains s x hc]; exact h

theorem sum_length_addAll_new [DecidableEq α] (hf : α → Nat) (xs : List α) :
    ((addAll (new hf) xs).hash_set.map List.length).sum = (addAll (new hf) xs).current_size := by
  induction xs using List.reverseRecOn with
  | nil => simp [addAll, new, initializeHashSet]
  | append_singleton ys y ih =>
    rw [addAll_append]
    exact sum_length_add _ (hash_addAll_new_spec hf ys).1 y ih

theorem elementsAtIndex_eq (s : HashSet α) (hs : WF s) (i : Nat) :
    elementsAtIndex s i = (chainAt s.hash_set i).length := by
  unfold elementsAtIndex
  by_cases hi : i ≥ s.max_capacity
  · rw [if_pos hi, chainAt_of_length_le _ _ (by rw [hs.len]; exact hi)]; rfl
  · rw [if_neg hi]

end HashSet

/-- C11: after any sequence of `add` calls on a fresh `HashSet`, with any hash
function, the sum of `elementsAtIndex(i)` over `i` in `[0, N)` equals `size()`
for every bound `N` that is at least the capacity; `elementsAtIndex(i)` is the
chain length for `i < capacity` and `0` from the capacity on. -/
theorem hashset_bucket_counts_sum_to_size {α : Type} [DecidableEq α] (hashFunction : α → Nat)
    (xs : List α) (N : Nat)
    (hN : (HashSet.addAll (HashSet.new hashFunction) xs).max_capacity ≤ N) :
    ((List.range N).map
        (fun i => HashSet.elementsAtIndex (HashSet.addAll (HashSet.new hashFunction) xs) i)).sum
      = HashSet.size (HashSet.addAll (HashSet.new hashFunction) xs) ∧
    (∀ i, i < (HashSet.addAll (HashSet.new hashFunction) xs).max_capacity →
      HashSet.elementsAtIndex (HashSet.addAll (HashSet.new hashFunction) xs) i
        = (HashSet.chainAt (HashSet.addAll (HashSet.new hashFunction) xs).hash_set i).length) ∧
    (∀ i, (HashSet.addAll (HashSet.new hashFunction) xs).max_capacity ≤ i →
      HashSet.elementsAtIndex (HashSet.addAll (HashSet.new hashFunction) xs) i = 0) := by
  have hwf := (HashSet.hash_addAll_new_spec hashFunction xs).1
  refine ⟨?_, ?_, ?_⟩
  · have e : (fun i => HashSet.elementsAtIndex (HashSet.addAll (HashSet.new hashFunction) xs) i)
        = fun i => (HashSet.chainAt
            (HashSet.addAll (HashSet.new hashFunction) xs).hash_set i).length := by
      funext i
      exact HashSet.elementsAtIndex_eq _ hwf i
    rw [e, HashSet.sum_length_range _ N (by rw [hwf.len]; exact hN),
      HashSet.sum_length_addAll_new]
    rfl
  · intro i hi
    simp [HashSet.elementsAtIndex, Nat.not_le.mpr hi]
  · intro i hi
    simp [HashSet.elementsAtIndex, hi]

/-- Witness for C11: the identity hash, the nine adds 0, ..., 8 and the bound
`N = 20`; the capacity is 10 and the sum over `[0, 20)` is 9. -/
theorem hashset_bucket_counts_sum_to_size_witness :
    (HashSet.addAll (HashSet.new (fun n : Nat => n)) [0, 1, 2, 3, 4, 5, 6, 7, 8]).max_capacity
      ≤ 20 ∧
    ((List.range 20).map
        (fun i => HashSet.elementsAtIndex
          (HashSet.addAll (HashSet.new (fun n : Nat => n)) [0, 1, 2, 3, 4, 5, 6, 7, 8]) i)).sum
      = 9 :=
  ⟨by decide,
   (hashset_bucket_counts_sum_to_size (fun n : Nat => n) [0, 1, 2, 3, 4, 5, 6, 7, 8] 20
      (by decide)).1.trans (by decide)⟩

end SpellChecker

/-! ## Further theorems about AVLSet -/

namespace SpellChecker
namespace AVLSet
variable {α : Type}

/-! ### Ascending insertion without balancing -/

theorem inorderHelper_rightSpine (xs : List α) : inorderHelper (rightSpine xs) = xs := by
  induction xs with
  | nil => rfl
  | cons x xs ih => simp [rightSpine, inorderHelper, ih]

theorem findHeight_rightSpine (xs : List α) :
    (findHeight (rightSpine xs)).1 = (xs.length : Int) - 1 := by
  induction xs with
  | nil => rfl
  | cons x xs ih =>
    simp only [rightSpine, findHeight, ih, List.length_cons]
    push_cast
    rw [max_eq_right (by omega)]
    ring

theorem insert_rightSpine [LinearOrder α] (root : Node α) (e : α)
    (hc : containsHelper root e = false) (zs : List α) (hz : ∀ z ∈ zs, z < e) :
    insert root false e (rightSpine zs) = some (rightSpine (zs ++ [e])) := by
  induction zs with
  | nil => simp [insert, hc, rightSpine]
  | cons z zs ih =>
    have hlt : z < e := hz z (List.mem_cons_self _ _)
    have ih' := ih (fun y hy => hz y (List.mem_cons_of_mem _ hy))
    simp [insert, hc, rightSpine, hlt, ih']

theorem addAll_rightSpine [LinearOrder α] (xs : List α) :
    ∀ (ys : List α) (c : Int), (ys ++ xs).Sorted (· < ·) →
      addAll ⟨rightSpine ys, false, c⟩ xs
        = some ⟨rightSpine (ys ++ xs), false, c + xs.length⟩ := by
  induction xs with
  | nil => intro ys c _; simp [addAll]
  | cons x xs ih =>
    intro ys c hs
    have hs' : ((ys ++ [x]) ++ xs).Sorted (· < ·) := by simpa using hs
    have hlt : ∀ z ∈ ys, z < x := by
      intro z hz
      have := List.pairwise_append.mp hs
      exact this.2.2 z hz x (List.mem_cons_self _ _)
    have hc : containsHelper (rightSpine ys) x = false := by
      cases h : containsHelper (rightSpine ys) x
      · rfl
      · rw [containsHelper_iff, inorderHelper_rightSpine] at h
        exact absurd (hlt x h) (lt_irrefl x)
    have hadd : add ⟨rightSpine ys, false, c⟩ x = some ⟨rightSpine (ys ++ [x]), false, c + 1⟩ := by
      simp [add, insert_rightSpine (rightSpine ys) x hc ys hlt]
    simp only [addAll, hadd, Option.some_bind]
    rw [ih (ys ++ [x]) (c + 1) hs']
    simp only [List.append_assoc, List.singleton_append, List.length_cons]
    congr 2
    push_cast
    ring

theorem sorted_range' (n : Nat) : ∀ s, (List.range' s n).Sorted (· < ·) := by
  induction n with
  | zero => intro s; simp
  | succ n ih =>
    intro s
    rw [List.range'_succ, List.sorted_cons]
    refine ⟨?_, ih (s + 1)⟩
    intro b hb
    rw [List.mem_range'] at hb
    obtain ⟨i, _, rfl⟩ := hb
    omega

end AVLSet

/-- C12: on an `AVLSet` constructed with balancing disabled, the adds
1, 2, ..., n in ascending order complete and leave `height() == n - 1`, for
every `n` (for `n = 0`, the empty set, `height() == -1`). -/
theorem avl_degenerate_height (n : Nat) :
    ∃ s, AVLSet.addAll (AVLSet.new false : AVLSet Nat) (List.range' 1 n) = some s ∧
      AVLSet.height s = (n : Int) - 1 := by
  have h := AVLSet.addAll_rightSpine (List.range' 1 n) [] 0
    (by simpa using AVLSet.sorted_range' n 1)
  refine ⟨_, h, ?_⟩
  simp [AVLSet.height, AVLSet.findHeight_rightSpine]

end SpellChecker

namespace SpellChecker
namespace AVLSet
variable {α : Type}

/-! ### Traversals -/

theorem preorderHelper_perm (t : Node α) : (preorderHelper t).Perm (inorderHelper t) := by
  induction t with
  | nullptr => exact List.Perm.refl _
  | node v l r h ihl ihr =>
    simp only [preorderHelper, inorderHelper]
    exact ((List.Perm.append ihl ihr).cons v).trans List.perm_middle.symm

theorem postorderHelper_perm (t : Node α) : (postorderHelper t).Perm (inorderHelper t) := by
  induction t with
  | nullptr => exact List.Perm.refl _
  | node v l r h ihl ihr =>
    simp only [postorderHelper, inorderHelper]
    refine List.Perm.append ihl ?_
    exact (List.perm_append_comm).trans (ihr.cons v)

/-- Whenever a sequence of `add` calls on an empty set completes, each of the
three traversals visits every distinct added value exactly once and nothing
else. -/
theorem avl_traversals_spec [LinearOrder α] (b : Bool) (xs : List α) (s : AVLSet α)
    (h : addAll (new b) xs = some s) :
    (preorder s).Perm xs.dedup ∧ (inorder s).Perm xs.dedup ∧ (postorder s).Perm xs.dedup := by
  have h0 : (inorder (new b : AVLSet α)).Sorted (· < ·) := by
    simp [inorder, new, inorderHelper]
  obtain ⟨h1, h2, _, _⟩ := avl_addAll_spec xs (new b) s h0 h
  have hin : (inorder s).Perm xs.dedup := by
    rw [List.perm_ext_iff_of_nodup h1.nodup (List.nodup_dedup xs)]
    intro y
    rw [h2 y, List.mem_dedup]
    simp [inorder, new, inorderHelper]
  exact ⟨(preorderHelper_perm s.root).trans hin, hin, (postorderHelper_perm s.root).trans hin⟩

/-! ### The copy constructor -/

theorem preorderHelper_copyAVLSet (t : Node α) :
    preorderHelper (copyAVLSet t) = preorderHelper t := by
  induction t with
  | nullptr => rfl
  | node v l r h ihl ihr => simp [copyAVLSet, preorderHelper, ihl, ihr]

theorem inorderHelper_copyAVLSet (t : Node α) :
    inorderHelper (copyAVLSet t) = inorderHelper t := by
  induction t with
  | nullptr => rfl
  | node v l r h ihl ihr => simp [copyAVLSet, inorderHelper, ihl, ihr]

theorem postorderHelper_copyAVLSet (t : Node α) :
    postorderHelper (copyAVLSet t) = postorderHelper t := by
  induction t with
  | nullptr => rfl
  | node v l r h ihl ihr => simp [copyAVLSet, postorderHelper, ihl, ihr]

theorem findHeight_copyAVLSet (t : Node α) :
    (findHeight (copyAVLSet t)).1 = (findHeight t).1 := by
  induction t with
  | nullptr => rfl
  | node v l r h ihl ihr => simp [copyAVLSet, findHeight, ihl, ihr]

theorem containsHelper_copyAVLSet [DecidableEq α] (t : Node α) (x : α) :
    containsHelper (copyAVLSet t) x = containsHelper t x := by
  induction t with
  | nullptr => rfl
  | node v l r h ihl ihr => simp [copyAVLSet, containsHelper, ihl, ihr]

/-! ### The search-tree ordering -/

theorem bstOrdered_iff_sorted [LinearOrder α] (t : Node α) :
    bstOrdered t ↔ (inorderHelper t).Sorted (· < ·) := by
  induction t with
  | nullptr => simp [bstOrdered, inorderHelper]
  | node v l r h ihl ihr =>
    simp only [bstOrdered, inorderHelper, sorted_node_iff, ihl, ihr]
    tauto

end AVLSet

/-- C17: `rightRotate` on a tree whose root has a left child, and `leftRotate`
on a tree whose root has a right child, return a tree with the same inorder
sequence; so the result satisfies the search-tree ordering exactly when the
argument does, and holds the same elements. -/
theorem avl_rotations_preserve_order {α : Type} [LinearOrder α]
    (value xvalue : α) (xleft xright other : AVLSet.Node α) (h xh : Int) :
    (∃ t, AVLSet.rightRotate (.node value (.node xvalue xleft xright xh) other h) = some t ∧
      AVLSet.inorderHelper t
        = AVLSet.inorderHelper (.node value (.node xvalue xleft xright xh) other h) ∧
      (AVLSet.bstOrdered t ↔
        AVLSet.bstOrdered (.node value (.node xvalue xleft xright xh) other h)) ∧
      ∀ x, AVLSet.containsHelper t x
        = AVLSet.containsHelper (.node value (.node xvalue xleft xright xh) other h) x) ∧
    (∃ t, AVLSet.leftRotate (.node value other (.node xvalue xleft xright xh) h) = some t ∧
      AVLSet.inorderHelper t
        = AVLSet.inorderHelper (.node value other (.node xvalue xleft xright xh) h) ∧
      (AVLSet.bstOrdered t ↔
        AVLSet.bstOrdered (.node value other (.node xvalue xleft xright xh) h)) ∧
      ∀ x, AVLSet.containsHelper t x
        = AVLSet.containsHelper (.node value other (.node xvalue xleft xright xh) h) x) := by
  have key : ∀ t t' : AVLSet.Node α, AVLSet.inorderHelper t' = AVLSet.inorderHelper t →
      (AVLSet.bstOrdered t' ↔ AVLSet.bstOrdered t) ∧
      ∀ x, AVLSet.containsHelper t' x = AVLSet.containsHelper t x := by
    intro t t' e
    refine ⟨by rw [AVLSet.bstOrdered_iff_sorted, AVLSet.bstOrdered_iff_sorted, e], ?_⟩
    intro x
    rw [Bool.eq_iff_iff, AVLSet.containsHelper_iff, AVLSet.containsHelper_iff, e]
  constructor
  · refine ⟨_, rfl, ?_⟩
    have e := AVLSet.inorderHelper_rightRotate
      (.node value (.node xvalue xleft xright xh) other h) _ rfl
    exact ⟨e, key _ _ e⟩
  · refine ⟨_, rfl, ?_⟩
    have e := AVLSet.inorderHelper_leftRotate
      (.node value other (.node xvalue xleft xright xh) h) _ rfl
    exact ⟨e, key _ _ e⟩

end SpellChecker

/-! ## The copy constructor of HashSet -/

namespace SpellChecker
namespace HashSet
variable {α : Type}

theorem copyHashSet_cells_none (source : List (List α)) (cells : List Nat) :
    ∀ target : List (List α), (∀ i, chainAt target i = []) →
      (∃ i ∈ cells, chainAt source i ≠ []) →
      cells.foldlM
        (fun tgt i => (copyChain (chainAt source i) (chainAt tgt i)).map (fun c => tgt.set i c))
        target = none := by
  induction cells with
  | nil => intro target _ h; obtain ⟨i, hi, _⟩ := h; simp at hi
  | cons c rest ih =>
    intro target ht h
    rw [List.foldlM_cons, ht c]
    cases hc : chainAt source c with
    | nil =>
      have hrest : ∃ i ∈ rest, chainAt source i ≠ [] := by
        obtain ⟨i, hi, hne⟩ := h
        rcases List.mem_cons.mp hi with rfl | hi
        · exact absurd hc hne
        · exact ⟨i, hi, hne⟩
      have hset : ∀ i, chainAt (target.set c []) i = [] := by
        intro i
        have := ht i
        unfold chainAt at this ⊢
        rw [List.getD_eq_getElem?_getD] at this ⊢
        rw [List.getElem?_set]
        by_cases hci : c = i
        · rw [if_pos hci]
          by_cases hlt : c < target.length
          · rw [if_pos hlt]; rfl
          · rw [if_neg hlt]; rfl
        · rw [if_neg hci]; exact this
      simp only [copyChain, Option.map_some', Option.some_bind, Option.bind_eq_bind]
      exact ih _ hset hrest
    | cons v next => simp [copyChain]

theorem exists_chain_of_size_pos [DecidableEq α] (hf : α → Nat) (xs : List α) (hx : xs ≠ []) :
    ∃ i ∈ List.range (addAll (new hf) xs).max_capacity,
      chainAt (addAll (new hf) xs).hash_set i ≠ [] := by
  obtain ⟨hwf, hmem, _⟩ := hash_addAll_new_spec hf xs
  obtain ⟨x, rest, rfl⟩ := List.exists_cons_of_ne_nil hx
  have hc := (hmem x).2 (List.mem_cons_self _ _)
  unfold contains at hc
  rw [scan_eq_true_iff] at hc
  refine ⟨(addAll (new hf) (x :: rest)).hashFunction x % (addAll (new hf) (x :: rest)).max_capacity,
    List.mem_range.mpr (Nat.mod_lt _ hwf.pos), ?_⟩
  intro he
  rw [he] at hc
  simp at hc

/-- The copy constructor completes on no set that holds an element. -/
theorem copy_isSome_eq_false [DecidableEq α] (hf : α → Nat) (xs : List α) (hx : xs ≠ []) :
    (copy (addAll (new hf) xs)).isSome = false := by
  unfold copy
  split_ifs
  · rfl
  · unfold copyHashSet
    rw [copyHashSet_cells_none _ _ _ (fun i => chainAt_initializeHashSet _ i)
      (exists_chain_of_size_pos hf xs hx)]
    rfl

end HashSet

/-- C14 (fails on the code): copying a `HashSet` that holds the single value
1 dereferences a null pointer in `copyHashSet` (the target cell holds
`nullptr` when `target_pointer->value` is written), and copying a set whose
capacity has grown to 20 stores outside the 10 cells the copy constructor
allocates; neither copy completes.  Only the copy of an empty set of
capacity 10 completes. -/
theorem hashset_copy_dereferences_null :
    (HashSet.copy (HashSet.addAll (HashSet.new (fun n : Nat => n)) [1])).isSome = false ∧
    HashSet.copyHashSet (HashSet.addAll (HashSet.new (fun n : Nat => n)) [1]).hash_set
      (HashSet.initializeHashSet 10) 10 = none ∧
    HashSet.copyChain [1] ([] : List Nat) = none ∧
    (HashSet.addAll (HashSet.new (fun n : Nat => n))
      [0, 1, 2, 3, 4, 5, 6, 7, 8, 9, 10]).max_capacity = 20 ∧
    (HashSet.copy (HashSet.addAll (HashSet.new (fun n : Nat => n))
      [0, 1, 2, 3, 4, 5, 6, 7, 8, 9, 10])).isSome = false ∧
    (HashSet.copy (HashSet.new (fun n : Nat => n))).map
      (fun c => (c.hash_set, c.max_capacity, c.current_size))
        = some (List.replicate 10 [], 10, 0) := by
  refine ⟨?_, ?_, ?_, ?_, ?_, ?_⟩ <;> decide

end SpellChecker

/-! ## Further claims about AVLSet that fail on the code -/

namespace SpellChecker

/-- C13 (fails on the code): with balancing enabled, the adds
1, 5, 6, 7, 9, 8, 4, 3 complete, and the call `add(2)` then reaches
`rightRotate(node->right)` at the root, whose right child 4 has no left child,
and dereferences the null pointer; after the nine adds there is no set to
traverse, so no traversal visits the added value 2. -/
theorem avl_traversals_lost_to_null_dereference :
    AVLSet.addAll (AVLSet.new true : AVLSet Int) [1, 5, 6, 7, 9, 8, 4, 3] =
      some { root :=
               .node 3 (.node 1 .nullptr .nullptr 1)
                 (.node 4 .nullptr
                   (.node 8
                     (.node 5 .nullptr (.node 7 (.node 6 .nullptr .nullptr 0) .nullptr 1) 2)
                     (.node 9 .nullptr .nullptr 0) 3) 4) 5
             balance := true
             current_size := 8 } ∧
    (AVLSet.addAll (AVLSet.new true : AVLSet Int) [1, 5, 6, 7, 9, 8, 4, 3, 2]).map
      (fun s => (AVLSet.preorder s, AVLSet.inorder s, AVLSet.postorder s)) = none := by
  decide

/-- C16 (fails on the code): with balancing enabled, after the adds
9, 7, 6, 5, 2 the call `add(3)` comes back to the root 7 with the left subtree
`5(2(-, 3), 6)`: the balance factor is 2 and 3 is less than the left child's
value 5.  One right rotation at 7 would leave `5(2(-, 3), 7(6, 9))`, preorder
5, 2, 3, 7, 6, 9.  The rebalancing block performs that rotation in its first
`if` and then, in its third `if`, `leftRotate(node->left); rightRotate(node)`
on the rotated node, and leaves `3(2, 5(-, 7(6, 9)))`, preorder
3, 2, 5, 7, 6, 9. -/
theorem avl_single_rotation_followed_by_double :
    AVLSet.addAll (AVLSet.new true : AVLSet Int) [9, 7, 6, 5, 2] =
      some { root :=
               .node 7 (.node 5 (.node 2 .nullptr .nullptr 0) (.node 6 .nullptr .nullptr 0) 1)
                 (.node 9 .nullptr .nullptr 0) 2
             balance := true
             current_size := 5 } ∧
    AVLSet.insert
        (.node 7 (.node 5 (.node 2 .nullptr .nullptr 0) (.node 6 .nullptr .nullptr 0) 1)
          (.node 9 .nullptr .nullptr 0) 2) true (3 : Int)
        (.node 5 (.node 2 .nullptr .nullptr 0) (.node 6 .nullptr .nullptr 0) 1)
      = some (.node 5 (.node 2 .nullptr (.node 3 .nullptr .nullptr 0) 1)
          (.node 6 .nullptr .nullptr 0) 2) ∧
    (AVLSet.findHeight
        (AVLSet.Node.node (5 : Int) (.node 2 .nullptr (.node 3 .nullptr .nullptr 0) 1)
          (.node 6 .nullptr .nullptr 0) 2)).1
      - (AVLSet.findHeight (AVLSet.Node.node (9 : Int) .nullptr .nullptr 0)).1 = 2 ∧
    (AVLSet.rightRotate
        (.node (7 : Int)
          (.node 5 (.node 2 .nullptr (.node 3 .nullptr .nullptr 0) 1)
            (.node 6 .nullptr .nullptr 0) 2)
          (.node 9 .nullptr .nullptr 0) 3)).map AVLSet.preorderHelper
      = some [5, 2, 3, 7, 6, 9] ∧
    (AVLSet.rebalance (3 : Int)
        (.node 7
          (.node 5 (.node 2 .nullptr (.node 3 .nullptr .nullptr 0) 1)
            (.node 6 .nullptr .nullptr 0) 2)
          (.node 9 .nullptr .nullptr 0) 2)).map AVLSet.preorderHelper
      = some [3, 2, 5, 7, 6, 9] ∧
    (AVLSet.addAll (AVLSet.new true : AVLSet Int) [9, 7, 6, 5, 2, 3]).map AVLSet.preorder
      = some [3, 2, 5, 7, 6, 9] := by
  decide

/-- C18 (fails on the code): with balancing enabled, the adds 1, 2, 3 end with
`leftRotate` at the root, which recomputes the two cached heights with
`get_height`, for which an absent subtree counts 0 and not -1: the leaf 1
caches height 1 and the root 2, of height 1, caches height 2. -/
theorem avl_cached_height_after_rotation :
    AVLSet.addAll (AVLSet.new true : AVLSet Int) [1, 2, 3] =
      some { root := .node 2 (.node 1 .nullptr .nullptr 1) (.node 3 .nullptr .nullptr 0) 2
             balance := true
             current_size := 3 } ∧
    (AVLSet.addAll (AVLSet.new true : AVLSet Int) [1, 2, 3]).map
      (fun s => AVLSet.cachedHeightsAgree s.root) = some false ∧
    (AVLSet.addAll (AVLSet.new true : AVLSet Int) [1, 2, 3]).map AVLSet.height = some 1 ∧
    AVLSet.leftRotate
        (.node (1 : Int) .nullptr
          (.node 2 .nullptr (.node 3 .nullptr .nullptr 0) 1) 2)
      = some (.node 2 (.node 1 .nullptr .nullptr 1) (.node 3 .nullptr .nullptr 0) 2) := by
  decide

/-- C20 (fails on the code): with balancing enabled, after the adds
1, 3, 4, 5, 9, 7, 2, 6 the call `add(8)` comes back to the root 6 with balance
factor 2 and 8 greater than the left child's value 5 (the recursive call has
left `8(7, 9)` as the right subtree); the third `if` calls
`leftRotate(node->left)` on the node 5, whose right child is absent, and
`x->left` is read through the null pointer. -/
theorem avl_rebalance_dereferences_null :
    AVLSet.addAll (AVLSet.new true : AVLSet Int) [1, 3, 4, 5, 9, 7, 2, 6] =
      some { root :=
               .node 6
                 (.node 5
                   (.node 2 (.node 1 .nullptr .nullptr 0)
                     (.node 3 .nullptr (.node 4 .nullptr .nullptr 0) 1) 2)
                   .nullptr 3)
                 (.node 7 .nullptr (.node 9 .nullptr .nullptr 0) 1) 4
             balance := true
             current_size := 8 } ∧
    AVLSet.leftRotate
        (.node (5 : Int)
          (.node 2 (.node 1 .nullptr .nullptr 0)
            (.node 3 .nullptr (.node 4 .nullptr .nullptr 0) 1) 2)
          .nullptr 3) = none ∧
    AVLSet.insert
        (.node 6
          (.node 5
            (.node 2 (.node 1 .nullptr .nullptr 0)
              (.node 3 .nullptr (.node 4 .nullptr .nullptr 0) 1) 2)
            .nullptr 3)
          (.node 7 .nullptr (.node 9 .nullptr .nullptr 0) 1) 4) true (8 : Int)
        (.node 7 .nullptr (.node 9 .nullptr .nullptr 0) 1)
      = some (.node 8 (.node 7 .nullptr .nullptr 1) (.node 9 .nullptr .nullptr 1) 2) ∧
    AVLSet.rebalance (8 : Int)
        (.node 6
          (.node 5
            (.node 2 (.node 1 .nullptr .nullptr 0)
              (.node 3 .nullptr (.node 4 .nullptr .nullptr 0) 1) 2)
            .nullptr 3)
          (.node 8 (.node 7 .nullptr .nullptr 1) (.node 9 .nullptr .nullptr 1) 2) 4) = none ∧
    AVLSet.addAll (AVLSet.new true : AVLSet Int) [1, 3, 4, 5, 9, 7, 2, 6, 8] = none := by
  decide

end SpellChecker

/-! ## Theorems about WordChecker -/

namespace SpellChecker
namespace WordChecker

theorem foldl_invariant {β γ : Type} (P : β → Prop) (f : β → γ → β)
    (hf : ∀ acc x, P acc → P (f acc x)) (l : List γ) : ∀ init, P init → P (l.foldl f init) := by
  induction l with
  | nil => intro init h; exact h
  | cons x xs ih => intro init h; exact ih _ (hf init x h)

theorem nodup_suggest (words : List Char → Bool) (suggestions : List (List Char))
    (temp : List Char) (h : suggestions.Nodup) : (suggest words suggestions temp).Nodup := by
  unfold suggest
  split_ifs with hc
  · simp only [Bool.and_eq_true, notContains, decide_eq_true_eq] at hc
    exact List.Nodup.append h (List.nodup_singleton _) (by simpa using hc.2)
  · exact h

theorem nodup_insertChar (words : List Char → Bool) (word : List Char)
    (suggestions : List (List Char)) (h : suggestions.Nodup) :
    (insertChar words word suggestions).Nodup := by
  unfold insertChar
  refine foldl_invariant List.Nodup _ ?_ _ _ h
  intro acc i hacc
  exact foldl_invariant List.Nodup _ (fun a c ha => nodup_suggest words a _ ha) _ _ hacc

theorem nodup_deleteChar (words : List Char → Bool) (word : List Char)
    (suggestions : List (List Char)) (h : suggestions.Nodup) :
    (deleteChar words word suggestions).Nodup := by
  unfold deleteChar
  exact foldl_invariant List.Nodup _ (fun a i ha => nodup_suggest words a _ ha) _ _ h

theorem nodup_replaceChar (words : List Char → Bool) (word : List Char)
    (suggestions : List (List Char)) (h : suggestions.Nodup) :
    (replaceChar words word suggestions).Nodup := by
  unfold replaceChar
  refine foldl_invariant List.Nodup _ ?_ _ _ h
  intro acc i hacc
  exact foldl_invariant (fun st : List Char × List (List Char) => st.2.Nodup) _
    (fun st c hst => nodup_suggest words st.2 _ hst) _ (word, acc) hacc

theorem nodup_splitWord (words : List Char → Bool) (word : List Char)
    (suggestions : List (List Char)) (h : suggestions.Nodup) :
    (splitWord words word suggestions).Nodup := by
  unfold splitWord
  refine foldl_invariant List.Nodup _ ?_ _ _ h
  intro acc i hacc
  split_ifs with hc
  · simp only [Bool.and_eq_true, notContains, decide_eq_true_eq] at hc
    exact List.Nodup.append hacc (List.nodup_singleton _) (by simpa using hc.2)
  · exact hacc

theorem swapAt_isSome (word : List Char) (i : Nat) (h : i + 1 < word.length) :
    ∃ temp, swapAt word i = some temp := by
  unfold swapAt
  rw [List.getElem?_eq_getElem (by omega), List.getElem?_eq_getElem h]
  exact ⟨_, rfl⟩

theorem SIZE_MODULUS_eq : SIZE_MODULUS = 18446744073709551616 := by
  norm_num [SIZE_MODULUS]

theorem size_minus_one (n : Nat) (h1 : 0 < n) (h2 : n < SIZE_MODULUS) :
    (n + SIZE_MODULUS - 1) % SIZE_MODULUS = n - 1 := by
  rw [SIZE_MODULUS_eq] at h2 ⊢
  omega

theorem swapAdjacentFrom_spec (words : List Char → Bool) (word : List Char)
    (h1 : 0 < word.length) :
    ∀ n i suggestions, word.length - 1 - i = n → suggestions.Nodup →
      ∃ r, swapAdjacentFrom words word (word.length - 1) i suggestions = some r ∧ r.Nodup := by
  intro n
  induction n with
  | zero =>
    intro i suggestions hn hs
    rw [swapAdjacentFrom, if_neg (by omega)]
    exact ⟨_, rfl, hs⟩
  | succ n ih =>
    intro i suggestions hn hs
    obtain ⟨temp, ht⟩ := swapAt_isSome word i (by omega)
    rw [swapAdjacentFrom, if_pos (by omega)]
    split
    · rename_i h; rw [ht] at h; cases h
    · rename_i t h
      exact ih (i + 1) _ (by omega) (nodup_suggest words suggestions t hs)

/-- For every set of words and every non-empty word, `findSuggestions` returns
and its result holds no string twice. -/
theorem findSuggestions_nodup (words : List Char → Bool) (word : List Char)
    (h1 : word ≠ []) (h2 : word.length < SIZE_MODULUS) :
    ∃ r, findSuggestions words word = some r ∧ r.Nodup := by
  have hpos : 0 < word.length := List.length_pos.mpr h1
  obtain ⟨s, hs, hn⟩ := swapAdjacentFrom_spec words word hpos _ 0 [] rfl List.nodup_nil
  have hf : findSuggestions words word
      = some (splitWord words word (replaceChar words word (deleteChar words word
          (insertChar words word s)))) := by
    unfold findSuggestions swapAdjacent
    rw [size_minus_one _ hpos h2, hs]
    rfl
  exact ⟨_, hf, nodup_splitWord _ _ _ (nodup_replaceChar _ _ _ (nodup_deleteChar _ _ _
    (nodup_insertChar _ _ _ hn)))⟩

end WordChecker

/-- C19 (fails on the code): for the empty word, with any set of words, the
loop of `swapAdjacent` is entered, because `word.size() - 1` is computed in
`std::size_t` and is `2 ^ 64 - 1`, and `std::swap(temp[0], temp[1])` reaches
outside the empty string; `findSuggestions` returns no sequence. -/
theorem wordchecker_empty_word_leaves_string (words : List Char → Bool) :
    WordChecker.findSuggestions words [] = none ∧
    ((([] : List Char).length + WordChecker.SIZE_MODULUS - 1) % WordChecker.SIZE_MODULUS
      = 2 ^ 64 - 1) ∧
    WordChecker.swapAt [] 0 = none := by
  have hs : WordChecker.swapAt [] 0 = none := rfl
  refine ⟨?_, by norm_num [WordChecker.SIZE_MODULUS], hs⟩
  unfold WordChecker.findSuggestions WordChecker.swapAdjacent
  rw [WordChecker.swapAdjacentFrom, if_pos (by norm_num [WordChecker.SIZE_MODULUS])]
  split
  · rfl
  · rename_i t h
    rw [hs] at h
    cases h

end SpellChecker

namespace SpellChecker
namespace WordChecker

/-! ### The order of discovery -/

/-- Adding a candidate when it is new. -/
theorem suggest_eq (words : List Char → Bool) (acc : List (List Char)) (c : List Char) :
    suggest words acc c
      = if wordExists words c then (if c ∈ acc then acc else acc ++ [c]) else acc := by
  unfold suggest notContains
  by_cases h1 : wordExists words c = true <;> by_cases h2 : c ∈ acc <;> simp [h1, h2]

theorem foldl_suggest_filter (words : List Char → Bool) (l : List (List Char)) :
    ∀ acc, l.foldl (suggest words) acc
      = (l.filter (wordExists words)).foldl
          (fun acc c => if c ∈ acc then acc else acc ++ [c]) acc := by
  induction l with
  | nil => intro acc; rfl
  | cons c rest ih =>
    intro acc
    rw [List.foldl_cons, ih, suggest_eq]
    by_cases h : wordExists words c = true
    · simp [List.filter_cons, h]
    · simp [List.filter_cons, h]

theorem foldl_flatMap_eq {β γ δ : Type} (g : β → δ → β) (f : γ → List δ) (l : List γ) :
    ∀ acc, l.foldl (fun acc i => (f i).foldl g acc) acc = (l.flatMap f).foldl g acc := by
  induction l with
  | nil => intro acc; rfl
  | cons x xs ih => intro acc; simp [List.flatMap_cons, List.foldl_append, ih]

theorem insertChar_eq (words : List Char → Bool) (word : List Char)
    (suggestions : List (List Char)) :
    insertChar words word suggestions
      = ((List.range (word.length + 1)).flatMap
          (fun i => alphabet.map (fun c => word.take i ++ c :: word.drop i))).foldl
          (suggest words) suggestions := by
  unfold insertChar
  rw [← foldl_flatMap_eq]
  simp only [List.foldl_map]

theorem deleteChar_eq (words : List Char → Bool) (word : List Char)
    (suggestions : List (List Char)) :
    deleteChar words word suggestions
      = ((List.range word.length).map (fun i => word.eraseIdx i)).foldl
          (suggest words) suggestions := by
  unfold deleteChar
  rw [List.foldl_map]

theorem replace_letters (words : List Char → Bool) (word : List Char) (i : Nat)
    (letters : List Char) :
    ∀ (temp : List Char) (acc : List (List Char)), (∀ c, temp.set i c = word.set i c) →
      (letters.foldl
        (fun (st : List Char × List (List Char)) c =>
          (st.1.set i c, suggest words st.2 (st.1.set i c)))
        (temp, acc)).2
        = (letters.map (fun c => word.set i c)).foldl (suggest words) acc := by
  induction letters with
  | nil => intro temp acc _; rfl
  | cons c rest ih =>
    intro temp acc h
    simp only [List.foldl_cons, List.map_cons]
    rw [ih (temp.set i c) _ (by intro d; rw [h c, List.set_set]), h c]

theorem replaceChar_eq (words : List Char → Bool) (word : List Char)
    (suggestions : List (List Char)) :
    replaceChar words word suggestions
      = ((List.range word.length).flatMap
          (fun i => alphabet.map (fun c => word.set i c))).foldl
          (suggest words) suggestions := by
  have key : ∀ (acc : List (List Char)) (i : Nat),
      (alphabet.foldl
        (fun (st : List Char × List (List Char)) c =>
          (st.1.set i c, suggest words st.2 (st.1.set i c)))
        (word, acc)).2
        = (alphabet.map (fun c => word.set i c)).foldl (suggest words) acc :=
    fun acc i => replace_letters words word i alphabet word acc (fun _ => rfl)
  unfold replaceChar
  rw [← foldl_flatMap_eq]
  simp only [key]

theorem splitWord_eq (words : List Char → Bool) (word : List Char) (cells : List Nat) :
    ∀ acc : List (List Char),
      cells.foldl
        (fun sugg i =>
          if wordExists words (word.take i) && wordExists words (word.drop i) &&
              notContains (word.take i ++ ' ' :: word.drop i) sugg then
            sugg ++ [word.take i ++ ' ' :: word.drop i]
          else sugg) acc
        = ((cells.filter
              (fun i => wordExists words (word.take i) && wordExists words (word.drop i))).map
            (fun i => word.take i ++ ' ' :: word.drop i)).foldl
          (fun acc c => if c ∈ acc then acc else acc ++ [c]) acc := by
  induction cells with
  | nil => intro acc; rfl
  | cons i rest ih =>
    intro acc
    rw [List.foldl_cons, ih]
    by_cases h : (wordExists words (word.take i) && wordExists words (word.drop i)) = true
    · by_cases h2 : (word.take i ++ ' ' :: word.drop i) ∈ acc
      · simp [List.filter_cons, h, h2, notContains]
      · simp [List.filter_cons, h, h2, notContains]
    · simp [List.filter_cons, h]

theorem swapAdjacentFrom_eq (words : List Char → Bool) (word : List Char)
    (h1 : 0 < word.length) :
    ∀ n i suggestions, word.length - 1 - i = n →
      swapAdjacentFrom words word (word.length - 1) i suggestions
        = some (((List.range' i n).filterMap (swapAt word)).foldl (suggest words)
            suggestions) := by
  intro n
  induction n with
  | zero =>
    intro i suggestions hn
    rw [swapAdjacentFrom, if_neg (by omega)]
    rfl
  | succ n ih =>
    intro i suggestions hn
    obtain ⟨temp, ht⟩ := swapAt_isSome word i (by omega)
    rw [swapAdjacentFrom, if_pos (by omega)]
    split
    · rename_i h; rw [ht] at h; cases h
    · rename_i t h
      rw [ih (i + 1) _ (by omega), List.range'_succ, List.filterMap_cons, h]
      rfl

theorem swapAdjacent_eq (words : List Char → Bool) (word : List Char)
    (h1 : word ≠ []) (h2 : word.length < SIZE_MODULUS) (suggestions : List (List Char)) :
    swapAdjacent words word suggestions
      = some (((List.range (word.length - 1)).filterMap (swapAt word)).foldl (suggest words)
          suggestions) := by
  have hpos : 0 < word.length := List.length_pos.mpr h1
  unfold swapAdjacent
  rw [size_minus_one _ hpos h2, List.range_eq_range']
  exact swapAdjacentFrom_eq words word hpos _ 0 suggestions rfl

/-- For every set of words and every non-empty word, `findSuggestions` returns
the candidates of the five passes that are in the set, in the order of their
discovery, each at its first occurrence only. -/
theorem findSuggestions_eq_firstOccurrences (words : List Char → Bool) (word : List Char)
    (h1 : word ≠ []) (h2 : word.length < SIZE_MODULUS) :
    findSuggestions words word = some (firstOccurrences (candidates words word)) := by
  unfold findSuggestions
  rw [swapAdjacent_eq words word h1 h2]
  simp only [Option.map_some', Option.some.injEq]
  rw [insertChar_eq, deleteChar_eq, replaceChar_eq]
  unfold splitWord
  rw [splitWord_eq, ← List.foldl_append, ← List.foldl_append, ← List.foldl_append,
    foldl_suggest_filter, ← List.foldl_append]
  unfold firstOccurrences candidates
  simp only [List.append_assoc]

end WordChecker
end SpellChecker

/-! ## Duplicate adds and ordered search -/

namespace SpellChecker
namespace AVLSet
variable {α : Type}

theorem add_of_contains_eq [LinearOrder α] (s : AVLSet α) (x : α)
    (h : contains s x = true) :
    add s x = some ⟨s.root, s.balance, s.current_size + 1⟩ := by
  unfold add
  rw [insert_of_contains s.root s.balance x s.root h]
  rfl

theorem containsHelper_eq_orderedSearch [LinearOrder α] (t : Node α) (x : α) :
    bstOrdered t → containsHelper t x = orderedSearch t x := by
  induction t with
  | nullptr => intro _; rfl
  | node v l r h ihl ihr =>
    rintro ⟨hl, hr, bl, br⟩
    have hnl : ∀ y, v ≤ y → containsHelper l y = false := by
      intro y hy
      cases hc : containsHelper l y
      · rfl
      · exact absurd (hl y ((containsHelper_iff l y).1 hc)) (not_lt.mpr hy)
    have hnr : ∀ y, y ≤ v → containsHelper r y = false := by
      intro y hy
      cases hc : containsHelper r y
      · rfl
      · exact absurd (hr y ((containsHelper_iff r y).1 hc)) (not_lt.mpr hy)
    simp only [containsHelper, orderedSearch]
    by_cases h1 : x < v
    · rw [if_neg (ne_of_gt h1), if_pos h1, hnr x (le_of_lt h1), Bool.or_false]
      exact ihl bl
    · by_cases h2 : v < x
      · rw [if_neg (ne_of_lt h2), if_neg h1, if_pos h2, hnl x (le_of_lt h2), Bool.false_or]
        exact ihr br
      · have e : v = x := le_antisymm (not_lt.mp h1) (not_lt.mp h2)
        rw [if_pos e, if_neg h1, if_neg h2]

theorem bstOrdered_of_addAll [LinearOrder α] (b : Bool) (xs : List α) (s : AVLSet α)
    (h : addAll (new b) xs = some s) : bstOrdered s.root := by
  have h0 : (inorder (new b : AVLSet α)).Sorted (· < ·) := by
    simp [inorder, new, inorderHelper]
  exact (bstOrdered_iff_sorted s.root).2 (avl_addAll_spec xs (new b) s h0 h).1

end AVLSet

/-- C21: for every `AVLSet` (so for every one reached from empty by `add`
calls, with balancing enabled or disabled) and every value `x` it contains,
`add(x)` completes and leaves the tree as it was, node for node: the same
root, hence the same `height()`, the same preorder, inorder and postorder
sequences and the same `contains` results. -/
theorem avl_duplicate_add_keeps_tree {α : Type} [LinearOrder α] (s : AVLSet α) (x : α)
    (h : AVLSet.contains s x = true) :
    ∃ s', AVLSet.add s x = some s' ∧ s'.root = s.root ∧ s'.balance = s.balance ∧
      AVLSet.height s' = AVLSet.height s ∧
      AVLSet.preorder s' = AVLSet.preorder s ∧
      AVLSet.inorder s' = AVLSet.inorder s ∧
      AVLSet.postorder s' = AVLSet.postorder s ∧
      ∀ y, AVLSet.contains s' y = AVLSet.contains s y :=
  ⟨_, AVLSet.add_of_contains_eq s x h, rfl, rfl, rfl, rfl, rfl, rfl, fun _ => rfl⟩

/-- Witness for C21: the set reached by the adds 2, 1, 3 with balancing
enabled, and a second `add(1)`. -/
theorem avl_duplicate_add_keeps_tree_witness :
    AVLSet.contains
        (⟨.node 2 (.node 1 .nullptr .nullptr 0) (.node 3 .nullptr .nullptr 0) 1, true, 3⟩ :
          AVLSet Int) 1 = true ∧
    AVLSet.addAll (AVLSet.new true : AVLSet Int) [2, 1, 3]
      = some ⟨.node 2 (.node 1 .nullptr .nullptr 0) (.node 3 .nullptr .nullptr 0) 1, true, 3⟩ ∧
    ∃ s', AVLSet.add
        (⟨.node 2 (.node 1 .nullptr .nullptr 0) (.node 3 .nullptr .nullptr 0) 1, true, 3⟩ :
          AVLSet Int) 1 = some s' ∧
      s'.root = .node 2 (.node 1 .nullptr .nullptr 0) (.node 3 .nullptr .nullptr 0) 1 :=
  ⟨by decide, by decide,
    (avl_duplicate_add_keeps_tree
      (⟨.node 2 (.node 1 .nullptr .nullptr 0) (.node 3 .nullptr .nullptr 0) 1, true, 3⟩ :
        AVLSet Int) 1 (by decide)).imp (fun _ hs => ⟨hs.1, hs.2.1⟩)⟩

/-- C22: for every `AVLSet` reached from empty by `add` calls, with balancing
enabled or disabled, and every value `x`, `contains(x)`, which searches both
subtrees, gives the result of the comparison-guided search. -/
theorem avl_contains_agrees_with_ordered_search {α : Type} [LinearOrder α] (balance : Bool)
    (xs : List α) (s : AVLSet α) (x : α)
    (h : AVLSet.addAll (AVLSet.new balance) xs = some s) :
    AVLSet.contains s x = AVLSet.orderedSearch s.root x :=
  AVLSet.containsHelper_eq_orderedSearch s.root x (AVLSet.bstOrdered_of_addAll balance xs s h)

/-- Witness for C22: the adds 9, 7, 6, 5, 2, 3 with balancing enabled, which
leave an unbalanced tree, and the search for 6. -/
theorem avl_contains_agrees_with_ordered_search_witness :
    AVLSet.addAll (AVLSet.new true : AVLSet Int) [9, 7, 6, 5, 2, 3] =
      some ⟨.node 3 (.node 2 .nullptr .nullptr 1)
        (.node 5 .nullptr
          (.node 7 (.node 6 .nullptr .nullptr 0) (.node 9 .nullptr .nullptr 0) 1) 2) 3,
        true, 6⟩ ∧
    AVLSet.contains
        (⟨.node 3 (.node 2 .nullptr .nullptr 1)
          (.node 5 .nullptr
            (.node 7 (.node 6 .nullptr .nullptr 0) (.node 9 .nullptr .nullptr 0) 1) 2) 3,
          true, 6⟩ : AVLSet Int) 6
      = AVLSet.orderedSearch
          (.node 3 (.node 2 .nullptr .nullptr 1)
            (.node 5 .nullptr
              (.node 7 (.node 6 .nullptr .nullptr 0) (.node 9 .nullptr .nullptr 0) 1) 2) 3) 6 :=
  ⟨by decide,
    avl_contains_agrees_with_ordered_search true [9, 7, 6, 5, 2, 3] _ 6 (by decide)⟩

end SpellChecker

/-! ## The swap-adjacent pass and the bounds of the word -/

namespace SpellChecker
namespace WordChecker

/-- For a non-empty word every index the loop of `swapAdjacent` admits has its
neighbour inside the word. -/
theorem swap_positions_in_range (word : List Char) (h1 : word ≠ [])
    (h2 : word.length < SIZE_MODULUS) (i : Nat)
    (hi : i < (word.length + SIZE_MODULUS - 1) % SIZE_MODULUS) : i + 1 < word.length := by
  rw [size_minus_one _ (List.length_pos.mpr h1) h2] at hi
  omega

theorem swapAdjacent_nil (words : List Char → Bool) (suggestions : List (List Char)) :
    swapAdjacent words [] suggestions = none := by
  have hs : swapAt [] 0 = none := rfl
  unfold swapAdjacent
  rw [swapAdjacentFrom, if_pos (by norm_num [SIZE_MODULUS])]
  split
  · rfl
  · rename_i t h
    rw [hs] at h
    cases h

theorem swapAdjacent_singleton (words : List Char → Bool) (c : Char)
    (suggestions : List (List Char)) :
    swapAdjacent words [c] suggestions = some suggestions := by
  unfold swapAdjacent
  rw [swapAdjacentFrom, if_neg (by norm_num [SIZE_MODULUS])]

end WordChecker

/-- C23 (fails on the code): for the empty word the loop condition of
`swapAdjacent`, `i < word.size() - 1` in `std::size_t` arithmetic, holds at
`i = 0` because the bound is `2 ^ 64 - 1`; the body then runs
`std::swap(temp[0], temp[1])` although position 1 is not below the length 0,
and the pass does not complete, whatever the set of words and the suggestions
so far.  For a one-character word the bound is 0 and the pass performs no
swap. -/
theorem wordchecker_swap_pass_enters_for_empty_word (words : List Char → Bool)
    (suggestions : List (List Char)) :
    0 < (([] : List Char).length + WordChecker.SIZE_MODULUS - 1) % WordChecker.SIZE_MODULUS ∧
    ¬ (0 + 1 < ([] : List Char).length) ∧
    WordChecker.swapAdjacent words [] suggestions = none ∧
    ∀ c, WordChecker.swapAdjacent words [c] suggestions = some suggestions :=
  ⟨by norm_num [WordChecker.SIZE_MODULUS], by simp,
    WordChecker.swapAdjacent_nil words suggestions,
    fun c => WordChecker.swapAdjacent_singleton words c suggestions⟩

end SpellChecker

/-! ## AVLSet on a store of node objects -/

namespace SpellChecker
namespace AVLSet
namespace Mem
variable {α : Type}

theorem stored_some [DecidableEq α] (m : List (Cell α)) (a : Nat) (t : Node α)
    (h : stored m (some a) t = true) :
    ∃ v l r ht c, t = .node v l r ht ∧ m[a]? = some c ∧ c.value = v ∧ c.node_height = ht ∧
      stored m c.left l = true ∧ stored m c.right r = true := by
  cases t with
  | nullptr => simp [stored] at h
  | node v l r ht =>
    unfold stored at h
    cases hc : m[a]? with
    | none => rw [hc] at h; simp at h
    | some c =>
      rw [hc] at h
      simp only [Bool.and_eq_true, decide_eq_true_eq] at h
      exact ⟨v, l, r, ht, c, rfl, rfl, h.1.1.1, h.1.1.2, h.1.2, h.2⟩

theorem stored_none [DecidableEq α] (m : List (Cell α)) (t : Node α)
    (h : stored m none t = true) : t = .nullptr := by
  cases t with
  | nullptr => rfl
  | node v l r ht => simp [stored] at h

theorem stored_node [DecidableEq α] (m : List (Cell α)) (a : Nat) (c : Cell α)
    (l r : Node α) (hc : m[a]? = some c) (hl : stored m c.left l = true)
    (hr : stored m c.right r = true) :
    stored m (some a) (.node c.value l r c.node_height) = true := by
  unfold stored
  rw [hc]
  simp [hl, hr]

/-- A stored tree stays stored in every store that agrees on a set of
addresses which holds the pointer and is closed under the child pointers
that are addresses of the store. -/
theorem stored_agree [DecidableEq α] (P : Nat → Prop) (m m' : List (Cell α))
    (hclosed : ∀ a c, P a → m[a]? = some c →
      (∀ b, c.left = some b → m[b]? ≠ none → P b) ∧
      (∀ b, c.right = some b → m[b]? ≠ none → P b))
    (hagree : ∀ a, P a → m'[a]? = m[a]?) (t : Node α) :
    ∀ p, (∀ a, p = some a → P a) → stored m p t = true → stored m' p t = true := by
  induction t with
  | nullptr =>
    intro p _ h
    cases p with
    | none => rfl
    | some a => simp [stored] at h
  | node v l r ht ihl ihr =>
    intro p hp h
    cases p with
    | none => simp [stored] at h
    | some a =>
      obtain ⟨v', l', r', ht', c, e, hc, hv, hh, hl, hr⟩ := stored_some m a _ h
      cases e
      have hPa := hp a rfl
      have hcl := hclosed a c hPa hc
      have sub : ∀ (q : Option Nat) (u : Node α), stored m q u = true →
          (∀ b, q = some b → m[b]? ≠ none → P b) → ∀ b, q = some b → P b := by
        intro q u hu hq b hb
        subst hb
        obtain ⟨_, _, _, _, cb, _, hcb, _⟩ := stored_some m b u hu
        exact hq b rfl (by rw [hcb]; simp)
      have hl' := ihl c.left (sub c.left _ hl hcl.1) hl
      have hr' := ihr c.right (sub c.right _ hr hcl.2) hr
      have := stored_node m' a c _ _ ((hagree a hPa).trans hc) hl' hr'
      rw [hv, hh] at this
      exact this

theorem stored_extend [DecidableEq α] (m m' : List (Cell α))
    (hagree : ∀ a, a < m.length → m'[a]? = m[a]?) (t : Node α) (p : Option Nat)
    (h : stored m p t = true) : stored m' p t = true := by
  refine stored_agree (fun a => a < m.length) m m' ?_ hagree t p ?_ h
  · intro a c _ _
    constructor <;> intro b _ hb
    · by_contra hlt
      exact hb (List.getElem?_eq_none (Nat.le_of_not_lt hlt))
    · by_contra hlt
      exact hb (List.getElem?_eq_none (Nat.le_of_not_lt hlt))
  · intro a ha
    subst ha
    cases t with
    | nullptr => simp [stored] at h
    | node v l r ht =>
      obtain ⟨_, _, _, _, c, _, hc, _⟩ := stored_some m a _ h
      by_contra hlt
      rw [List.getElem?_eq_none (Nat.le_of_not_lt hlt)] at hc
      cases hc

/-- On a stored tree `containsHelper` returns what it returns on the tree. -/
theorem containsHelper_stored [DecidableEq α] (m : List (Cell α)) (x : α) (t : Node α) :
    ∀ fuel p, stored m p t = true → levels t < fuel →
      containsHelper fuel m p x = some (AVLSet.containsHelper t x) := by
  induction t with
  | nullptr =>
    intro fuel p h hf
    cases p with
    | none =>
      cases fuel with
      | zero => simp at hf
      | succ f => rfl
    | some a => simp [stored] at h
  | node v l r ht ihl ihr =>
    intro fuel p h hf
    cases p with
    | none => simp [stored] at h
    | some a =>
      obtain ⟨v', l', r', ht', c, e, hc, hv, hh, hl, hr⟩ := stored_some m a _ h
      cases e
      cases fuel with
      | zero => simp at hf
      | succ f =>
        simp only [levels] at hf
        have hfl : levels l < f := by omega
        have hfr : levels r < f := by omega
        rw [containsHelper, hc]
        simp only [Option.some_bind, AVLSet.containsHelper, hv]
        by_cases hx : v = x
        · simp [hx]
        · rw [if_neg hx, if_neg hx, ihl f c.left hl hfl, Option.some_bind, ihr f c.right hr hfr]
          cases AVLSet.containsHelper l x <;> simp

end Mem
end AVLSet
end SpellChecker

namespace SpellChecker
namespace AVLSet
namespace Mem
variable {α : Type}

theorem getElem?_set_ne (m : List (Cell α)) (a b : Nat) (c : Cell α) (h : a ≠ b) :
    (m.set a c)[b]? = m[b]? := by
  rw [List.getElem?_set, if_neg h]

theorem getElem?_set_self (m : List (Cell α)) (a : Nat) (c : Cell α) (h : a < m.length) :
    (m.set a c)[a]? = some c := by
  rw [List.getElem?_set, if_pos rfl, if_pos h]

theorem lt_length_of_getElem? (m : List (Cell α)) (a : Nat) (c : Cell α)
    (h : m[a]? = some c) : a < m.length := by
  by_contra hlt
  rw [List.getElem?_eq_none (Nat.le_of_not_lt hlt)] at h
  cases h

theorem Fresh.mono {N K : Nat} {p : Option Nat} (h : Fresh K p) (hNK : N ≤ K) : Fresh N p :=
  fun a ha => le_trans hNK (h a ha)

theorem fresh_none (N : Nat) : Fresh N none := fun _ h => by cases h

/-- The copy of a stored tree completes within the levels of the tree,
leaves every object of the store as it was, and stores the copied tree in
new objects only. -/
theorem copyAVLSet_stored [DecidableEq α] (t : Node α) :
    ∀ fuel (m : List (Cell α)) p, stored m p t = true → levels t < fuel →
      ∃ m' p', copyAVLSet fuel m p = some (m', p') ∧
        (∀ a, a < m.length → m'[a]? = m[a]?) ∧ m.length ≤ m'.length ∧
        Fresh m.length p' ∧
        (∀ a c, m.length ≤ a → m'[a]? = some c →
          Fresh m.length c.left ∧ Fresh m.length c.right) ∧
        stored m' p' (AVLSet.copyAVLSet t) = true := by
  induction t with
  | nullptr =>
    intro fuel m p h hf
    cases p with
    | some a => simp [stored] at h
    | none =>
      cases fuel with
      | zero => simp at hf
      | succ f =>
        refine ⟨m, none, rfl, fun _ _ => rfl, le_refl _, fresh_none _, ?_, rfl⟩
        intro a c ha hc
        exact absurd (lt_length_of_getElem? m a c hc) (Nat.not_lt.mpr ha)
  | node v l r ht ihl ihr =>
    intro fuel m p h hf
    cases p with
    | none => simp [stored] at h
    | some a =>
      obtain ⟨v', l', r', ht', c, e, hc, hv, hh, hl, hr⟩ := stored_some m a _ h
      cases e
      cases fuel with
      | zero => simp at hf
      | succ f =>
        simp only [levels] at hf
        have hfl : levels l < f := by omega
        have hfr : levels r < f := by omega
        have hlen0 : (m ++ [Cell.mk c.value none none 1]).length = m.length + 1 := by simp
        have agree0 : ∀ a, a < m.length → (m ++ [Cell.mk c.value none none 1])[a]? = m[a]? :=
          fun a ha => List.getElem?_append_left ha
        have hK0 : (m ++ [Cell.mk c.value none none 1])[m.length]?
            = some (Cell.mk c.value none none 1) := by
          rw [List.getElem?_append_right (le_refl _)]; simp
        -- the left subtree
        obtain ⟨m1', pl, e1, agree1, len1, fresh1, region1, st1⟩ :=
          ihl f _ c.left (stored_extend m _ agree0 l c.left hl) hfl
        rw [hlen0] at agree1 len1 fresh1 region1
        have hK1 : m1'[m.length]? = some (Cell.mk c.value none none 1) :=
          (agree1 _ (Nat.lt_succ_self _)).trans hK0
        have hKlt1 : m.length < m1'.length := by omega
        -- the right subtree
        have agree01 : ∀ a, a < m.length →
            (m1'.set m.length (Cell.mk c.value pl none 1))[a]? = m[a]? := by
          intro a ha
          rw [getElem?_set_ne _ _ _ _ (Nat.ne_of_gt ha), agree1 a (by omega), agree0 a ha]
        obtain ⟨m2', pr, e2, agree2, len2, fresh2, region2, st2⟩ :=
          ihr f _ c.right (stored_extend m _ agree01 r c.right hr) hfr
        rw [List.length_set] at agree2 len2 fresh2 region2
        have hK2 : m2'[m.length]? = some (Cell.mk c.value pl none 1) :=
          (agree2 _ hKlt1).trans (getElem?_set_self _ _ _ hKlt1)
        have hKlt2 : m.length < m2'.length := by omega
        refine ⟨m2'.set m.length (Cell.mk c.value pl pr 1), some m.length, ?_, ?_, ?_, ?_, ?_, ?_⟩
        · rw [copyAVLSet, hc]
          simp only [Option.some_bind, e1, setLeft, hK1, Option.map_some', e2, setRight, hK2]
        · intro a ha
          rw [getElem?_set_ne _ _ _ _ (Nat.ne_of_gt ha), agree2 a (by omega), agree01 a ha]
        · rw [List.length_set]; omega
        · intro a ha; cases ha; exact le_refl _
        · intro a c' ha hc'
          by_cases hKa : m.length = a
          · subst hKa
            rw [getElem?_set_self _ _ _ hKlt2] at hc'
            cases hc'
            exact ⟨fresh1.mono (by omega), fresh2.mono (by omega)⟩
          · rw [getElem?_set_ne _ _ _ _ hKa] at hc'
            by_cases hlt : a < m1'.length
            · rw [agree2 a hlt, getElem?_set_ne _ _ _ _ hKa] at hc'
              have := region1 a c' (by omega) hc'
              exact ⟨this.1.mono (by omega), this.2.mono (by omega)⟩
            · have := region2 a c' (by omega) hc'
              exact ⟨this.1.mono (by omega), this.2.mono (by omega)⟩
        · have sl : stored (m2'.set m.length (Cell.mk c.value pl pr 1)) pl
              (AVLSet.copyAVLSet l) = true := by
            refine stored_agree (fun a => m.length + 1 ≤ a ∧ a < m1'.length) m1' _ ?_ ?_ _ pl ?_ st1
            · intro a c' ha hc'
              have := region1 a c' ha.1 hc'
              constructor <;> intro b hb hne
              · refine ⟨this.1 b hb, ?_⟩
                by_contra hlt
                exact hne (List.getElem?_eq_none (Nat.le_of_not_lt hlt))
              · refine ⟨this.2 b hb, ?_⟩
                by_contra hlt
                exact hne (List.getElem?_eq_none (Nat.le_of_not_lt hlt))
            · intro a ha
              rw [getElem?_set_ne _ _ _ _ (by omega), agree2 a ha.2,
                getElem?_set_ne _ _ _ _ (by omega)]
            · intro b hb
              subst hb
              obtain ⟨_, _, _, _, cb, _, hcb, _⟩ := stored_some m1' b _ st1
              exact ⟨fresh1 b rfl, lt_length_of_getElem? _ _ _ hcb⟩
          have sr : stored (m2'.set m.length (Cell.mk c.value pl pr 1)) pr
              (AVLSet.copyAVLSet r) = true := by
            refine stored_agree (fun a => m1'.length ≤ a) m2' _ ?_ ?_ _ pr ?_ st2
            · intro a c' ha hc'
              have := region2 a c' ha hc'
              exact ⟨fun b hb _ => this.1 b hb, fun b hb _ => this.2 b hb⟩
            · intro a ha
              rw [getElem?_set_ne _ _ _ _ (by omega)]
            · exact fun b hb => fresh2 b hb
          have := stored_node (m2'.set m.length (Cell.mk c.value pl pr 1)) m.length
            (Cell.mk c.value pl pr 1) _ _ (getElem?_set_self _ _ _ hKlt2) sl sr
          simpa [AVLSet.copyAVLSet, hv] using this

end Mem
end AVLSet
end SpellChecker

namespace SpellChecker
namespace AVLSet
namespace Mem
variable {α : Type}

/-! ### Writes of a set whose nodes lie from address `N` on stay from `N` on -/

theorem agree_refl (N : Nat) (m : List (Cell α)) : Agree N m m := fun _ _ => rfl

theorem agree_trans {N : Nat} {m m1 m2 : List (Cell α)} (h1 : Agree N m m1)
    (h2 : Agree N m1 m2) : Agree N m m2 :=
  fun a ha => (h2 a ha).trans (h1 a ha)

theorem deref_fresh {N : Nat} {m : List (Cell α)} {p : Option Nat} {c : Cell α}
    (hm : Region N m) (hp : Fresh N p) (h : deref m p = some c) :
    Fresh N c.left ∧ Fresh N c.right := by
  cases p with
  | none => simp [deref] at h
  | some a => exact hm.2 a c (hp a rfl) h

theorem set_frame {N : Nat} {m : List (Cell α)} (a : Nat) (c : Cell α) (hm : Region N m)
    (ha : N ≤ a) (hl : Fresh N c.left) (hr : Fresh N c.right) :
    Region N (m.set a c) ∧ Agree N m (m.set a c) := by
  refine ⟨⟨by rw [List.length_set]; exact hm.1, ?_⟩, ?_⟩
  · intro b c' hb hc'
    rw [List.getElem?_set] at hc'
    by_cases hab : a = b
    · rw [if_pos hab] at hc'
      by_cases hlt : a < m.length
      · rw [if_pos hlt] at hc'; cases hc'; exact ⟨hl, hr⟩
      · rw [if_neg hlt] at hc'; cases hc'
    · rw [if_neg hab] at hc'
      exact hm.2 b c' hb hc'
  · intro b hb
    exact getElem?_set_ne m a b c (by omega)

theorem setLeft_frame {N : Nat} {m m' : List (Cell α)} {p q : Option Nat} (hm : Region N m)
    (hp : Fresh N p) (hq : Fresh N q) (h : setLeft m p q = some m') :
    Region N m' ∧ Agree N m m' := by
  cases p with
  | none => simp [setLeft] at h
  | some a =>
    simp only [setLeft, Option.some_bind, Option.map_eq_some'] at h
    obtain ⟨c, hc, rfl⟩ := h
    exact set_frame a _ hm (hp a rfl) hq (hm.2 a c (hp a rfl) hc).2

theorem setRight_frame {N : Nat} {m m' : List (Cell α)} {p q : Option Nat} (hm : Region N m)
    (hp : Fresh N p) (hq : Fresh N q) (h : setRight m p q = some m') :
    Region N m' ∧ Agree N m m' := by
  cases p with
  | none => simp [setRight] at h
  | some a =>
    simp only [setRight, Option.some_bind, Option.map_eq_some'] at h
    obtain ⟨c, hc, rfl⟩ := h
    exact set_frame a _ hm (hp a rfl) (hm.2 a c (hp a rfl) hc).1 hq

theorem setHeight_frame {N : Nat} {m m' : List (Cell α)} {p : Option Nat} {k : Int}
    (hm : Region N m) (hp : Fresh N p) (h : setHeight m p k = some m') :
    Region N m' ∧ Agree N m m' := by
  cases p with
  | none => simp [setHeight] at h
  | some a =>
    simp only [setHeight, Option.some_bind, Option.map_eq_some'] at h
    obtain ⟨c, hc, rfl⟩ := h
    exact set_frame a _ hm (hp a rfl) (hm.2 a c (hp a rfl) hc).1 (hm.2 a c (hp a rfl) hc).2

theorem allocate_frame {N : Nat} {m : List (Cell α)} (v : α) (hm : Region N m) :
    Region N (m ++ [Cell.mk v none none 1]) ∧ Agree N m (m ++ [Cell.mk v none none 1]) ∧
      Fresh N (some m.length) := by
  refine ⟨⟨by rw [List.length_append]; exact Nat.le_add_right_of_le hm.1, ?_⟩, ?_, ?_⟩
  · intro b c hb hc
    by_cases hlt : b < m.length
    · rw [List.getElem?_append_left hlt] at hc
      exact hm.2 b c hb hc
    · rw [List.getElem?_append_right (Nat.le_of_not_lt hlt)] at hc
      have hc' : c = Cell.mk v none none 1 := by
        cases hk : b - m.length with
        | zero => rw [hk] at hc; simpa using hc.symm
        | succ k => rw [hk] at hc; simp at hc
      subst hc'
      exact ⟨fresh_none N, fresh_none N⟩
  · intro b hb
    exact List.getElem?_append_left (lt_of_lt_of_le hb hm.1)
  · intro a ha
    cases ha
    exact hm.1

theorem findHeight_frame {N : Nat} :
    ∀ fuel (m : List (Cell α)) (p : Option Nat) (r : Int × List (Cell α)), Region N m →
      Fresh N p → findHeight fuel m p = some r → Region N r.2 ∧ Agree N m r.2 := by
  intro fuel
  induction fuel with
  | zero => intro m p r _ _ h; simp [findHeight] at h
  | succ f ih =>
    intro m p r hm hp h
    cases p with
    | none =>
      simp only [findHeight, Option.some.injEq] at h
      subst h
      exact ⟨hm, agree_refl N m⟩
    | some a =>
      simp only [findHeight, Option.bind_eq_some, Option.map_eq_some'] at h
      obtain ⟨node, hnode, l, hl, r', hr, m1, hset, rfl⟩ := h
      have hf := hm.2 a node (hp a rfl) hnode
      obtain ⟨hm1, ag1⟩ := ih m node.left l hm hf.1 hl
      obtain ⟨hm2, ag2⟩ := ih l.2 node.right r' hm1 hf.2 hr
      obtain ⟨hm3, ag3⟩ := setHeight_frame hm2 hp hset
      exact ⟨hm3, agree_trans (agree_trans ag1 ag2) ag3⟩

theorem recomputeHeight_frame {N : Nat} {m m' : List (Cell α)} {p : Option Nat}
    (hm : Region N m) (hp : Fresh N p) (h : recomputeHeight m p = some m') :
    Region N m' ∧ Agree N m m' := by
  simp only [recomputeHeight, Option.bind_eq_some] at h
  obtain ⟨c, _, hl, _, hr, _, hset⟩ := h
  exact setHeight_frame hm hp hset

theorem rightRotate_frame {N : Nat} {m : List (Cell α)} {node : Option Nat}
    {r : List (Cell α) × Option Nat} (hm : Region N m) (hp : Fresh N node)
    (h : rightRotate m node = some r) : Region N r.1 ∧ Agree N m r.1 ∧ Fresh N r.2 := by
  simp only [rightRotate, Option.bind_eq_some, Option.map_eq_some'] at h
  obtain ⟨n, hn, xn, hxn, m1, h1, m2, h2, m3, h3, m4, h4, rfl⟩ := h
  have fn := deref_fresh hm hp hn
  have fx := deref_fresh hm fn.1 hxn
  obtain ⟨r1, a1⟩ := setLeft_frame hm hp fx.2 h1
  obtain ⟨r2, a2⟩ := setRight_frame r1 fn.1 hp h2
  obtain ⟨r3, a3⟩ := recomputeHeight_frame r2 hp h3
  obtain ⟨r4, a4⟩ := recomputeHeight_frame r3 fn.1 h4
  exact ⟨r4, agree_trans (agree_trans (agree_trans a1 a2) a3) a4, fn.1⟩

theorem leftRotate_frame {N : Nat} {m : List (Cell α)} {node : Option Nat}
    {r : List (Cell α) × Option Nat} (hm : Region N m) (hp : Fresh N node)
    (h : leftRotate m node = some r) : Region N r.1 ∧ Agree N m r.1 ∧ Fresh N r.2 := by
  simp only [leftRotate, Option.bind_eq_some, Option.map_eq_some'] at h
  obtain ⟨n, hn, xn, hxn, m1, h1, m2, h2, m3, h3, m4, h4, rfl⟩ := h
  have fn := deref_fresh hm hp hn
  have fx := deref_fresh hm fn.2 hxn
  obtain ⟨r1, a1⟩ := setRight_frame hm hp fx.1 h1
  obtain ⟨r2, a2⟩ := setLeft_frame r1 fn.2 hp h2
  obtain ⟨r3, a3⟩ := recomputeHeight_frame r2 hp h3
  obtain ⟨r4, a4⟩ := recomputeHeight_frame r3 fn.2 h4
  exact ⟨r4, agree_trans (agree_trans (agree_trans a1 a2) a3) a4, fn.2⟩

theorem leftRotateLeftChild_frame {N : Nat} {m : List (Cell α)} {node : Option Nat}
    {r : List (Cell α) × Option Nat} (hm : Region N m) (hp : Fresh N node)
    (h : leftRotateLeftChild m node = some r) :
    Region N r.1 ∧ Agree N m r.1 ∧ Fresh N r.2 := by
  simp only [leftRotateLeftChild, Option.bind_eq_some, Option.map_eq_some'] at h
  obtain ⟨n, hn, q, hq, m1, h1, rfl⟩ := h
  have fn := deref_fresh hm hp hn
  obtain ⟨r1, a1, f1⟩ := leftRotate_frame hm fn.1 hq
  obtain ⟨r2, a2⟩ := setLeft_frame r1 hp f1 h1
  exact ⟨r2, agree_trans a1 a2, hp⟩

theorem rightRotateRightChild_frame {N : Nat} {m : List (Cell α)} {node : Option Nat}
    {r : List (Cell α) × Option Nat} (hm : Region N m) (hp : Fresh N node)
    (h : rightRotateRightChild m node = some r) :
    Region N r.1 ∧ Agree N m r.1 ∧ Fresh N r.2 := by
  simp only [rightRotateRightChild, Option.bind_eq_some, Option.map_eq_some'] at h
  obtain ⟨n, hn, q, hq, m1, h1, rfl⟩ := h
  have fn := deref_fresh hm hp hn
  obtain ⟨r1, a1, f1⟩ := rightRotate_frame hm fn.2 hq
  obtain ⟨r2, a2⟩ := setRight_frame r1 hp f1 h1
  exact ⟨r2, agree_trans a1 a2, hp⟩

end Mem
end AVLSet
end SpellChecker

namespace SpellChecker
namespace AVLSet
namespace Mem
variable {α : Type}

theorem rebalanceLeftLeft_frame [LinearOrder α] {N : Nat} (e : α) (d : Int)
    {st r : List (Cell α) × Option Nat} (hm : Region N st.1) (hp : Fresh N st.2)
    (h : rebalanceLeftLeft e d st = some r) :
    Region N r.1 ∧ Agree N st.1 r.1 ∧ Fresh N r.2 := by
  unfold rebalanceLeftLeft at h
  split_ifs at h
  · obtain ⟨v, _, hv⟩ := Option.bind_eq_some.mp h
    split_ifs at hv
    · exact rightRotate_frame hm hp hv
    · cases hv; exact ⟨hm, agree_refl _ _, hp⟩
  · cases h; exact ⟨hm, agree_refl _ _, hp⟩

theorem rebalanceRightRight_frame [LinearOrder α] {N : Nat} (e : α) (d : Int)
    {st r : List (Cell α) × Option Nat} (hm : Region N st.1) (hp : Fresh N st.2)
    (h : rebalanceRightRight e d st = some r) :
    Region N r.1 ∧ Agree N st.1 r.1 ∧ Fresh N r.2 := by
  unfold rebalanceRightRight at h
  split_ifs at h
  · obtain ⟨v, _, hv⟩ := Option.bind_eq_some.mp h
    split_ifs at hv
    · exact leftRotate_frame hm hp hv
    · cases hv; exact ⟨hm, agree_refl _ _, hp⟩
  · cases h; exact ⟨hm, agree_refl _ _, hp⟩

theorem rebalanceLeftRight_frame [LinearOrder α] {N : Nat} (e : α) (d : Int)
    {st r : List (Cell α) × Option Nat} (hm : Region N st.1) (hp : Fresh N st.2)
    (h : rebalanceLeftRight e d st = some r) :
    Region N r.1 ∧ Agree N st.1 r.1 ∧ Fresh N r.2 := by
  unfold rebalanceLeftRight at h
  split_ifs at h
  · obtain ⟨v, _, hv⟩ := Option.bind_eq_some.mp h
    split_ifs at hv
    · obtain ⟨q, hq, hr⟩ := Option.bind_eq_some.mp hv
      obtain ⟨r1, a1, f1⟩ := leftRotateLeftChild_frame hm hp hq
      obtain ⟨r2, a2, f2⟩ := rightRotate_frame r1 f1 hr
      exact ⟨r2, agree_trans a1 a2, f2⟩
    · cases hv; exact ⟨hm, agree_refl _ _, hp⟩
  · cases h; exact ⟨hm, agree_refl _ _, hp⟩

theorem rebalanceRightLeft_frame [LinearOrder α] {N : Nat} (e : α) (d : Int)
    {st r : List (Cell α) × Option Nat} (hm : Region N st.1) (hp : Fresh N st.2)
    (h : rebalanceRightLeft e d st = some r) :
    Region N r.1 ∧ Agree N st.1 r.1 ∧ Fresh N r.2 := by
  unfold rebalanceRightLeft at h
  split_ifs at h
  · obtain ⟨v, _, hv⟩ := Option.bind_eq_some.mp h
    split_ifs at hv
    · obtain ⟨q, hq, hr⟩ := Option.bind_eq_some.mp hv
      obtain ⟨r1, a1, f1⟩ := rightRotateRightChild_frame hm hp hq
      obtain ⟨r2, a2, f2⟩ := leftRotate_frame r1 f1 hr
      exact ⟨r2, agree_trans a1 a2, f2⟩
    · cases hv; exact ⟨hm, agree_refl _ _, hp⟩
  · cases h; exact ⟨hm, agree_refl _ _, hp⟩

theorem rebalance_frame [LinearOrder α] {N : Nat} (limit : Nat) {m : List (Cell α)} (e : α)
    {node : Option Nat} {r : List (Cell α) × Option Nat} (hm : Region N m)
    (hp : Fresh N node) (h : rebalance limit m e node = some r) :
    Region N r.1 ∧ Agree N m r.1 ∧ Fresh N r.2 := by
  unfold rebalance at h
  obtain ⟨k, hk, h⟩ := Option.bind_eq_some.mp h
  obtain ⟨m1, hm1, h⟩ := Option.bind_eq_some.mp h
  obtain ⟨n, hn, h⟩ := Option.bind_eq_some.mp h
  obtain ⟨l, hl, h⟩ := Option.bind_eq_some.mp h
  obtain ⟨q, hq, h⟩ := Option.bind_eq_some.mp h
  obtain ⟨s3, h, h4⟩ := Option.bind_eq_some.mp h
  obtain ⟨s2, h, h3⟩ := Option.bind_eq_some.mp h
  obtain ⟨s1, h1, h2⟩ := Option.bind_eq_some.mp h
  obtain ⟨ra, aa⟩ := findHeight_frame limit m node k hm hp hk
  obtain ⟨rb, ab⟩ := setHeight_frame ra hp hm1
  have fn := deref_fresh rb hp hn
  obtain ⟨rc, ac⟩ := findHeight_frame limit m1 n.left l rb fn.1 hl
  obtain ⟨rd, ad⟩ := findHeight_frame limit l.2 n.right q rc fn.2 hq
  obtain ⟨r1, a1, f1⟩ := @rebalanceLeftLeft_frame _ _ _ e _ (q.2, node) _ rd hp h1
  obtain ⟨r2, a2, f2⟩ := rebalanceRightRight_frame e _ r1 f1 h2
  obtain ⟨r3, a3, f3⟩ := rebalanceLeftRight_frame e _ r2 f2 h3
  obtain ⟨r4, a4, f4⟩ := rebalanceRightLeft_frame e _ r3 f3 h4
  exact ⟨r4, agree_trans (agree_trans (agree_trans (agree_trans (agree_trans (agree_trans
    (agree_trans aa ab) ac) ad) a1) a2) a3) a4, f4⟩

theorem insert_frame [LinearOrder α] {N : Nat} (limit : Nat) (root : Option Nat)
    (balance : Bool) (e : α) :
    ∀ fuel (m : List (Cell α)) (node : Option Nat) (r : List (Cell α) × Option Nat),
      Region N m → Fresh N node → insert limit fuel m root balance e node = some r →
      Region N r.1 ∧ Agree N m r.1 ∧ Fresh N r.2 := by
  intro fuel
  induction fuel with
  | zero => intro m node r _ _ h; simp [insert] at h
  | succ f ih =>
    intro m node r hm hp h
    simp only [insert] at h
    obtain ⟨present, _, h⟩ := Option.bind_eq_some.mp h
    by_cases hpr : present = true
    · rw [if_pos hpr] at h
      cases h
      exact ⟨hm, agree_refl _ _, hp⟩
    · rw [if_neg hpr] at h
      obtain ⟨st, hst, h⟩ := Option.bind_eq_some.mp h
      have hstep : Region N st.1 ∧ Agree N m st.1 ∧ Fresh N st.2 := by
        cases node with
        | none =>
          simp only [Option.some.injEq] at hst
          subst hst
          exact allocate_frame e hm
        | some a =>
          simp only at hst
          obtain ⟨n, hn, hst⟩ := Option.bind_eq_some.mp hst
          have fn := hm.2 a n (hp a rfl) hn
          by_cases h1 : n.value < e
          · rw [if_pos h1] at hst
            obtain ⟨q, hq, hset⟩ := Option.bind_eq_some.mp hst
            obtain ⟨m1, hm1, rfl⟩ := Option.map_eq_some'.mp hset
            obtain ⟨ra, aa, fa⟩ := ih m n.right q hm fn.2 hq
            obtain ⟨rb, ab⟩ := setRight_frame ra hp fa hm1
            exact ⟨rb, agree_trans aa ab, hp⟩
          · rw [if_neg h1] at hst
            by_cases h2 : n.value > e
            · rw [if_pos h2] at hst
              obtain ⟨q, hq, hset⟩ := Option.bind_eq_some.mp hst
              obtain ⟨m1, hm1, rfl⟩ := Option.map_eq_some'.mp hset
              obtain ⟨ra, aa, fa⟩ := ih m n.left q hm fn.1 hq
              obtain ⟨rb, ab⟩ := setLeft_frame ra hp fa hm1
              exact ⟨rb, agree_trans aa ab, hp⟩
            · rw [if_neg h2] at hst
              cases hst
              exact ⟨hm, agree_refl _ _, hp⟩
      cases balance with
      | false =>
        simp only [Bool.false_eq_true, if_false, Option.some.injEq] at h
        subst h
        exact hstep
      | true =>
        simp only [if_true] at h
        obtain ⟨r1, a1, f1⟩ := rebalance_frame limit e hstep.1 hstep.2.2 h
        exact ⟨r1, agree_trans hstep.2.1 a1, f1⟩

/-- An `add` on a set whose nodes all lie at addresses from `N` on leaves
every object below `N` as it was. -/
theorem add_frame [LinearOrder α] {N : Nat} (limit : Nat) {m m' : List (Cell α)}
    {s s' : Object} (x : α) (hm : Region N m) (hs : Fresh N s.root)
    (h : add limit m s x = some (m', s')) :
    Region N m' ∧ Agree N m m' ∧ Fresh N s'.root := by
  unfold add at h
  obtain ⟨r, hr, e⟩ := Option.map_eq_some'.mp h
  cases e
  exact insert_frame limit s.root s.balance x limit m s.root r hm hs hr

end Mem
end AVLSet
end SpellChecker

/-! ## The copy constructor of AVLSet -/

namespace SpellChecker
namespace AVLSet
namespace Mem
variable {α : Type}

/-- Every tree can be stored: from any store, appending objects gives a store
that holds the tree. -/
theorem exists_stored [DecidableEq α] (t : Node α) :
    ∀ m : List (Cell α), ∃ m' p, (∀ a, a < m.length → m'[a]? = m[a]?) ∧
      m.length ≤ m'.length ∧ stored m' p t = true := by
  induction t with
  | nullptr => exact fun m => ⟨m, none, fun _ _ => rfl, le_refl _, rfl⟩
  | node v l r ht ihl ihr =>
    intro m
    obtain ⟨m1, pl, a1, l1, sl⟩ := ihl m
    obtain ⟨m2, pr, a2, l2, sr⟩ := ihr m1
    have a3 : ∀ a, a < m2.length → (m2 ++ [Cell.mk v pl pr ht])[a]? = m2[a]? :=
      fun a ha => List.getElem?_append_left ha
    refine ⟨m2 ++ [Cell.mk v pl pr ht], some m2.length, ?_, ?_, ?_⟩
    · intro a ha
      rw [a3 a (by omega), a2 a (by omega), a1 a ha]
    · simp only [List.length_append, List.length_singleton]
      omega
    · have hc : (m2 ++ [Cell.mk v pl pr ht])[m2.length]? = some (Cell.mk v pl pr ht) := by
        simp
      exact stored_node _ m2.length (Cell.mk v pl pr ht) l r hc
        (stored_extend m2 _ a3 l pl (stored_extend m1 m2 a2 l pl sl))
        (stored_extend m2 _ a3 r pr sr)

end Mem
end AVLSet

/-- C15: the copy constructor of `AVLSet` gives a set with the same `size()`,
the same `height()`, the same balancing flag, the same preorder, inorder and
postorder sequences and the same `contains` results as the original, for
every set (so for every set reached from empty by `add` calls).  On a heap of
objects, where two sets could share nodes: every set can be held in a heap;
and in every heap that holds the set `s` in the `AVLSet` object at address
`i`, the copy constructor completes and makes a new `AVLSet` object that
holds the copy, `size()` and `contains` of `s` still return what they
returned, and after every later `add` on the copy that returns, the tree of
`s` is still stored at its root pointer, object for object, and `size()` and
`contains` of `s` return what they returned before. -/
theorem avl_copy_faithful {α : Type} [LinearOrder α] (s : AVLSet α) :
    AVLSet.size (AVLSet.copy s) = AVLSet.size s ∧
    AVLSet.height (AVLSet.copy s) = AVLSet.height s ∧
    (AVLSet.copy s).balance = s.balance ∧
    AVLSet.preorder (AVLSet.copy s) = AVLSet.preorder s ∧
    AVLSet.inorder (AVLSet.copy s) = AVLSet.inorder s ∧
    AVLSet.postorder (AVLSet.copy s) = AVLSet.postorder s ∧
    (∀ x, AVLSet.contains (AVLSet.copy s) x = AVLSet.contains s x) ∧
    (∃ (h : AVLSet.Mem.Heap α) (i : Nat) (root : Option Nat),
      h.sets[i]? = some ⟨root, s.balance, s.current_size⟩ ∧
      AVLSet.Mem.stored h.nodes root s.root = true) ∧
    ∀ (h : AVLSet.Mem.Heap α) (i : Nat) (root : Option Nat),
      h.sets[i]? = some ⟨root, s.balance, s.current_size⟩ →
      AVLSet.Mem.stored h.nodes root s.root = true →
      AVLSet.Mem.sizeAt h i = some (AVLSet.size s) ∧
      (∀ fuel y, AVLSet.levels s.root < fuel →
        AVLSet.Mem.containsAt fuel h i y = some (AVLSet.contains s y)) ∧
      ∃ h1 j c,
        AVLSet.Mem.constructCopy (AVLSet.levels s.root + 1) h i = some (h1, j) ∧
        j ≠ i ∧
        h1.sets[j]? = some c ∧
        AVLSet.Mem.stored h1.nodes c.root (AVLSet.copy s).root = true ∧
        c.balance = (AVLSet.copy s).balance ∧
        c.current_size = (AVLSet.copy s).current_size ∧
        AVLSet.Mem.stored h1.nodes root s.root = true ∧
        AVLSet.Mem.sizeAt h1 i = some (AVLSet.size s) ∧
        (∀ fuel y, AVLSet.levels s.root < fuel →
          AVLSet.Mem.containsAt fuel h1 i y = some (AVLSet.contains s y)) ∧
        ∀ limit x h2, AVLSet.Mem.addAt limit h1 j x = some h2 →
          AVLSet.Mem.stored h2.nodes root s.root = true ∧
          AVLSet.Mem.sizeAt h2 i = some (AVLSet.size s) ∧
          ∀ fuel y, AVLSet.levels s.root < fuel →
            AVLSet.Mem.containsAt fuel h2 i y = some (AVLSet.contains s y) := by
  refine ⟨rfl, AVLSet.findHeight_copyAVLSet s.root, rfl, AVLSet.preorderHelper_copyAVLSet s.root,
    AVLSet.inorderHelper_copyAVLSet s.root, AVLSet.postorderHelper_copyAVLSet s.root,
    fun x => AVLSet.containsHelper_copyAVLSet s.root x, ?_, ?_⟩
  · obtain ⟨m, p, _, _, st⟩ := AVLSet.Mem.exists_stored s.root []
    exact ⟨⟨m, [⟨p, s.balance, s.current_size⟩]⟩, 0, p, rfl, st⟩
  intro h i root hi hst
  have hilt : i < h.sets.length := by
    by_contra hlt
    rw [List.getElem?_eq_none (Nat.le_of_not_lt hlt)] at hi
    cases hi
  refine ⟨by simp [AVLSet.Mem.sizeAt, hi, AVLSet.size], fun fuel y hf => ?_, ?_⟩
  · simp only [AVLSet.Mem.containsAt, hi, Option.some_bind, AVLSet.Mem.contains]
    exact AVLSet.Mem.containsHelper_stored h.nodes y s.root fuel root hst hf
  obtain ⟨m1, p, e, agree, len, fresh, region, st⟩ :=
    AVLSet.Mem.copyAVLSet_stored s.root (AVLSet.levels s.root + 1) h.nodes root hst
      (Nat.lt_succ_self _)
  have hi1 : (h.sets ++ [(⟨p, s.balance, s.current_size⟩ : AVLSet.Mem.Object)])[i]?
      = some ⟨root, s.balance, s.current_size⟩ := by
    rw [List.getElem?_append_left hilt, hi]
  have hj1 : (h.sets ++ [(⟨p, s.balance, s.current_size⟩ : AVLSet.Mem.Object)])[h.sets.length]?
      = some ⟨p, s.balance, s.current_size⟩ := by
    simp
  have st1 : AVLSet.Mem.stored m1 root s.root = true :=
    AVLSet.Mem.stored_extend h.nodes m1 agree s.root root hst
  refine ⟨⟨m1, h.sets ++ [⟨p, s.balance, s.current_size⟩]⟩, h.sets.length,
    ⟨p, s.balance, s.current_size⟩, ?_, Nat.ne_of_gt hilt, hj1, st, rfl, rfl, st1, ?_,
    fun fuel y hf => ?_, ?_⟩
  · simp [AVLSet.Mem.constructCopy, hi, AVLSet.Mem.copy, e]
  · simp [AVLSet.Mem.sizeAt, hi1, AVLSet.size]
  · simp only [AVLSet.Mem.containsAt, hi1, Option.some_bind, AVLSet.Mem.contains]
    exact AVLSet.Mem.containsHelper_stored m1 y s.root fuel root st1 hf
  · intro limit x h2 hadd
    simp only [AVLSet.Mem.addAt, hj1, Option.some_bind, Option.map_eq_some'] at hadd
    obtain ⟨⟨m2, c'⟩, hadd, e2⟩ := hadd
    subst e2
    obtain ⟨_, agree2, _⟩ :=
      AVLSet.Mem.add_frame (N := h.nodes.length) limit x ⟨len, region⟩ fresh hadd
    have st2 : AVLSet.Mem.stored m2 root s.root = true :=
      AVLSet.Mem.stored_extend h.nodes m2 (fun a ha => (agree2 a ha).trans (agree a ha))
        s.root root hst
    have hi2 : ((h.sets ++ [(⟨p, s.balance, s.current_size⟩ : AVLSet.Mem.Object)]).set
        h.sets.length c')[i]? = some ⟨root, s.balance, s.current_size⟩ := by
      rw [List.getElem?_set_ne (Nat.ne_of_gt hilt), hi1]
    refine ⟨st2, by simp only [AVLSet.Mem.sizeAt, hi2, Option.map_some', AVLSet.size],
      fun fuel y hf => ?_⟩
    simp only [AVLSet.Mem.containsAt, hi2, Option.some_bind, AVLSet.Mem.contains]
    exact AVLSet.Mem.containsHelper_stored m2 y s.root fuel root st2 hf

/-- Witness for C15: the set reached by the adds 2, 1, 3 with balancing
enabled, held in the `AVLSet` object at address 0 with its tree in the three
`Node` objects at addresses 0, 1, 2.  The copy constructor makes the `AVLSet`
object at address 1 and three new `Node` objects; `add(4)` on the copy
returns, and after it the copy has size 4 and contains 4, the original has
size 3 and does not contain 4.  (An `add(4)` on a second `AVLSet` object with
the root pointer of the original, which is what a copy that shared the nodes
would be, does make the original contain 4.) -/
theorem avl_copy_faithful_witness :
    AVLSet.addAll (AVLSet.new true : AVLSet Int) [2, 1, 3]
      = some ⟨.node 2 (.node 1 .nullptr .nullptr 0) (.node 3 .nullptr .nullptr 0) 1, true, 3⟩ ∧
    (∃ h1 j,
      AVLSet.Mem.constructCopy 3
          ⟨[⟨(2 : Int), some 1, some 2, 1⟩, ⟨1, none, none, 0⟩, ⟨3, none, none, 0⟩],
           [⟨some 0, true, 3⟩]⟩ 0 = some (h1, j) ∧
      ∀ limit x h2, AVLSet.Mem.addAt limit h1 j x = some h2 →
        AVLSet.Mem.sizeAt h2 0 = some 3 ∧
        ∀ fuel y, 2 < fuel → AVLSet.Mem.containsAt fuel h2 0 y
          = some (AVLSet.contains
              ⟨.node 2 (.node 1 .nullptr .nullptr 0) (.node 3 .nullptr .nullptr 0) 1, true, 3⟩
              y)) ∧
    AVLSet.Mem.constructCopy 3
        ⟨[⟨(2 : Int), some 1, some 2, 1⟩, ⟨1, none, none, 0⟩, ⟨3, none, none, 0⟩],
         [⟨some 0, true, 3⟩]⟩ 0
      = some (⟨[⟨2, some 1, some 2, 1⟩, ⟨1, none, none, 0⟩, ⟨3, none, none, 0⟩,
                ⟨2, some 4, some 5, 1⟩, ⟨1, none, none, 1⟩, ⟨3, none, none, 1⟩],
               [⟨some 0, true, 3⟩, ⟨some 3, true, 3⟩]⟩, 1) ∧
    ((AVLSet.Mem.addAt 4
        ⟨[⟨(2 : Int), some 1, some 2, 1⟩, ⟨1, none, none, 0⟩, ⟨3, none, none, 0⟩,
          ⟨2, some 4, some 5, 1⟩, ⟨1, none, none, 1⟩, ⟨3, none, none, 1⟩],
         [⟨some 0, true, 3⟩, ⟨some 3, true, 3⟩]⟩ 1 4).map
      (fun h2 => (AVLSet.Mem.sizeAt h2 1, AVLSet.Mem.containsAt 4 h2 1 4,
                  AVLSet.Mem.sizeAt h2 0, AVLSet.Mem.containsAt 4 h2 0 4)))
      = some (some 4, some true, some 3, some false) ∧
    ((AVLSet.Mem.addAt 4
        ⟨[⟨(2 : Int), some 1, some 2, 1⟩, ⟨1, none, none, 0⟩, ⟨3, none, none, 0⟩],
         [⟨some 0, true, 3⟩, ⟨some 0, true, 3⟩]⟩ 1 4).map
      (fun h2 => AVLSet.Mem.containsAt 4 h2 0 4)) = some (some true) :=
  ⟨by decide,
    ((avl_copy_faithful
        (⟨.node 2 (.node 1 .nullptr .nullptr 0) (.node 3 .nullptr .nullptr 0) 1, true, 3⟩ :
          AVLSet Int)).2.2.2.2.2.2.2.2
      ⟨[⟨(2 : Int), some 1, some 2, 1⟩, ⟨1, none, none, 0⟩, ⟨3, none, none, 0⟩],
       [⟨some 0, true, 3⟩]⟩ 0 (some 0) rfl (by decide)).2.2.imp
      (fun _ hj => hj.imp (fun _ hc => hc.elim (fun _ hc =>
        ⟨hc.1, fun limit x h2 hadd =>
          ⟨(hc.2.2.2.2.2.2.2.2.2 limit x h2 hadd).2.1,
            (hc.2.2.2.2.2.2.2.2.2 limit x h2 hadd).2.2⟩⟩))),
    by decide, by decide, by decide⟩

end SpellChecker
